import Mathlib

/-!
WaybackScope: target resolution, the archive fetcher and the worker pool.

A shallow embedding of `main.go`: `normalizeDomain`, `pipedInputDomains`, the target
resolution of `main`, and `streamURLs`, with the parts of the Go standard library they
call (`strings`, `net/url`, `bufio.Reader.ReadString`).

Modelling conventions.

* A Go `string` is a sequence of bytes, here `List Nat`. `lit` gives the bytes of an ASCII
  literal of the source.
* The error counters and the retry counter are mathematical integers: they leave the range
  of `int64` only after `2^63` failed requests. The duration of a wait is computed as Go
  does, on 64-bit integers (`sleepNanoseconds`): it is `500 * try` milliseconds up to
  `try = 18446744073` and wraps around from `try = 18446744074` on.
* The network, the file system and standard input are arguments: what each call of
  `client.Do` returns, what the list file holds, what standard input is.
* Loops are functions with fuel that return `none` when it runs out; the theorems show that
  the fuel given is enough.
* `streamURLs` ignores its argument `silent`, and `ua` only sets a request header; neither
  is modelled.
-/

namespace WaybackScope

/-- A Go string, as its bytes. -/
abbrev GoString := List Nat

/-- The bytes of an ASCII string literal. -/
def lit (s : String) : GoString := s.toList.map Char.toNat

/-! ## Package `strings` -/

/-- Go `strings.HasPrefix`. -/
def HasPrefix (s pre : GoString) : Bool := pre.isPrefixOf s

/-- Go `strings.HasSuffix`. -/
def HasSuffix (s suf : GoString) : Bool := suf.reverse.isPrefixOf s.reverse

/-- Go `strings.TrimPrefix`. -/
def TrimPrefix (s pre : GoString) : GoString :=
  if HasPrefix s pre then s.drop pre.length else s

/-- Go `strings.TrimSuffix`. -/
def TrimSuffix (s suf : GoString) : GoString :=
  if HasSuffix s suf then s.take (s.length - suf.length) else s

/-- The UTF-8 encodings of the runes for which `unicode.IsSpace` holds:
U+0009..U+000D, U+0020, U+0085, U+00A0, U+1680, U+2000..U+200A, U+2028, U+2029, U+202F,
U+205F, U+3000. -/
def spaceRunes : List GoString :=
  [[0x09], [0x0A], [0x0B], [0x0C], [0x0D], [0x20],
   [0xC2, 0x85], [0xC2, 0xA0], [0xE1, 0x9A, 0x80],
   [0xE2, 0x80, 0x80], [0xE2, 0x80, 0x81], [0xE2, 0x80, 0x82], [0xE2, 0x80, 0x83],
   [0xE2, 0x80, 0x84], [0xE2, 0x80, 0x85], [0xE2, 0x80, 0x86], [0xE2, 0x80, 0x87],
   [0xE2, 0x80, 0x88], [0xE2, 0x80, 0x89], [0xE2, 0x80, 0x8A],
   [0xE2, 0x80, 0xA8], [0xE2, 0x80, 0xA9], [0xE2, 0x80, 0xAF], [0xE2, 0x81, 0x9F],
   [0xE3, 0x80, 0x80]]

/-- The rune of `runes` the string starts with, if any. -/
def leadingRune (runes : List GoString) (s : GoString) : Option GoString :=
  runes.find? (fun r => r.isPrefixOf s)

/-- The loop of `strings.TrimLeftFunc`: drop leading runes of `runes` one at a time. Every
iteration shortens the string, so `fuel = len(s)` iterations are enough. -/
def trimLeftLoop (runes : List GoString) : Nat → GoString → GoString
  | 0, s => s
  | fuel + 1, s =>
    match leadingRune runes s with
    | some r => trimLeftLoop runes fuel (s.drop r.length)
    | none => s

/-- Drop all leading runes that belong to `runes`. -/
def trimLeft (runes : List GoString) (s : GoString) : GoString :=
  trimLeftLoop runes s.length s

/-- Go `strings.TrimSpace`: `TrimRightFunc(TrimLeftFunc(s, unicode.IsSpace), unicode.IsSpace)`.
A white space rune is decoded at the front (`utf8.DecodeRune`) exactly when the string starts
with its encoding, and at the back (`utf8.DecodeLastRune`) exactly when it ends with it;
the back is trimmed on the reversed string. -/
def TrimSpace (s : GoString) : GoString :=
  (trimLeft (spaceRunes.map List.reverse) (trimLeft spaceRunes s).reverse).reverse

/-- Go `strings.Cut` for a one-byte separator: the text before the first separator, the text
after it, and whether the separator occurs. -/
def Cut (s : GoString) (sep : Nat) : GoString × GoString × Bool :=
  (s.takeWhile (fun c => c != sep), (s.dropWhile (fun c => c != sep)).drop 1, s.contains sep)

/-- Go `strings.LastIndex` for a one-byte separator. -/
def LastIndexByte (s : GoString) (sep : Nat) : Option Nat :=
  if s.contains sep then some (s.length - 1 - (s.reverse.takeWhile (fun c => c != sep)).length)
  else none

/-- Go `strings.Index`. -/
def Index : GoString → GoString → Option Nat
  | [], sub => if sub.isPrefixOf [] then some 0 else none
  | c :: s, sub => if sub.isPrefixOf (c :: s) then some 0 else (Index s sub).map (fun i => i + 1)

/-! ## Package `net/url`: `Parse`, as far as its error and the `Host` field

The parser of Go 1.21 (`net/url/url.go`). Only what decides whether `Parse` returns an error
and what `URL.Host` is has been kept. -/

/-- The URL parts `unescape` is called for. -/
inductive encoding where
  | encodePath
  | encodeHost
  | encodeZone
  | encodeUserPassword
  | encodeFragment
  deriving DecidableEq

def isAlpha (c : Nat) : Bool := (97 ≤ c && c ≤ 122) || (65 ≤ c && c ≤ 90)

def isDigit (c : Nat) : Bool := 48 ≤ c && c ≤ 57

def ishex (c : Nat) : Bool := isDigit c || (97 ≤ c && c ≤ 102) || (65 ≤ c && c ≤ 70)

def unhex (c : Nat) : Nat :=
  if isDigit c then c - 48
  else if 97 ≤ c && c ≤ 102 then c - 97 + 10
  else if 65 ≤ c && c ≤ 70 then c - 65 + 10
  else 0

/-- Go `stringContainsCTLByte`: an ASCII control byte occurs. -/
def stringContainsCTLByte (s : GoString) : Bool := s.any (fun b => b < 32 || b == 127)

/-- Go `shouldEscape(c, encodeHost)` (the same for `encodeZone`): letters, digits,
`!$&()*+,;=:[]<>`, the apostrophe (39), the double quote (34) and `-_.~` need no escape. -/
def shouldEscapeHost (c : Nat) : Bool :=
  !(isAlpha c || isDigit c || (lit "!$&()*+,;=:[]<>").contains c || c == 39 || c == 34
    || (lit "-_.~").contains c)

/-- Go `unescape`: `none` is an `EscapeError` or `InvalidHostError`. A percent sign must be
followed by two hex digits; in a host only `%25` and escapes of non-ASCII bytes are allowed,
and an ASCII byte that would need escaping is an error. -/
def unescape (mode : encoding) : GoString → Option GoString
  | [] => some []
  | c :: rest =>
    if c = 37 then
      match rest with
      | a :: b :: rest2 =>
        if !(ishex a && ishex b) then none
        else if mode = .encodeHost && unhex a < 8 && !(a == 50 && b == 53) then none
        else if mode = .encodeZone && !(a == 50 && b == 53) && unhex a * 16 + unhex b != 32
            && shouldEscapeHost (unhex a * 16 + unhex b) then none
        else (unescape mode rest2).map (fun t => (unhex a * 16 + unhex b) :: t)
      | _ => none
    else if (mode = .encodeHost || mode = .encodeZone) && c < 128 && shouldEscapeHost c then none
    else (unescape mode rest).map (fun t => c :: t)

/-- Go `validOptionalPort`: empty, or a colon followed by digits only. -/
def validOptionalPort (port : GoString) : Bool :=
  match port with
  | [] => true
  | c :: ds => c == 58 && ds.all isDigit

/-- Go `parseHost`. -/
def parseHost (host : GoString) : Option GoString :=
  if HasPrefix host (lit "[") then
    match LastIndexByte host 93 with
    | none => none
    | some i =>
      if !validOptionalPort (host.drop (i + 1)) then none
      else
        match Index (host.take i) (lit "%25") with
        | some zone =>
          match unescape .encodeHost (host.take zone),
                unescape .encodeZone ((host.take i).drop zone),
                unescape .encodeHost (host.drop i) with
          | some host1, some host2, some host3 => some (host1 ++ host2 ++ host3)
          | _, _, _ => none
        | none => unescape .encodeHost host
  else
    match LastIndexByte host 58 with
    | some i => if !validOptionalPort (host.drop i) then none else unescape .encodeHost host
    | none => unescape .encodeHost host

/-- Go `validUserinfo`. -/
def validUserinfo (s : GoString) : Bool :=
  s.all (fun r => isAlpha r || isDigit r || (lit "-._:~!$&()*+,;=%@").contains r || r == 39)

/-- Go `parseAuthority`, returning the host. Whether the user info holds a colon or not, each
of its two parts must unescape. -/
def parseAuthority (authority : GoString) : Option GoString :=
  match LastIndexByte authority 64 with
  | none => parseHost authority
  | some i =>
    match parseHost (authority.drop (i + 1)) with
    | none => none
    | some host =>
      let userinfo := authority.take i
      if !validUserinfo userinfo then none
      else
        match unescape .encodeUserPassword (Cut userinfo 58).1,
              unescape .encodeUserPassword (Cut userinfo 58).2.1 with
        | some _, some _ => some host
        | _, _ => none

/-- The loop of Go `getScheme` from index `i` on; `none` is the error
"missing protocol scheme", otherwise the scheme and the rest. -/
def getSchemeLoop (rawURL : GoString) : Nat → GoString → Option (GoString × GoString)
  | _, [] => some ([], rawURL)
  | i, c :: cs =>
    if isAlpha c then getSchemeLoop rawURL (i + 1) cs
    else if isDigit c || c == 43 || c == 45 || c == 46 then
      if i = 0 then some ([], rawURL) else getSchemeLoop rawURL (i + 1) cs
    else if c = 58 then
      if i = 0 then none else some (rawURL.take i, cs)
    else some ([], rawURL)

/-- Go `getScheme`. -/
def getScheme (rawURL : GoString) : Option (GoString × GoString) :=
  getSchemeLoop rawURL 0 rawURL

/-- Go `parse(rawURL, viaRequest = false)`: `none` on error, otherwise the host. The query is
cut off at the first question mark (both branches of the source do that). -/
def parse (rawURL : GoString) : Option GoString :=
  if stringContainsCTLByte rawURL then none
  else if rawURL = lit "*" then some []
  else
    match getScheme rawURL with
    | none => none
    | some (scheme, rest0) =>
      let rest := (Cut rest0 63).1
      if !HasPrefix rest (lit "/") then
        if scheme ≠ [] then some []
        else if (Cut rest 47).1.contains 58 then none
        else (unescape .encodePath rest).map (fun _ => [])
      else if (scheme ≠ [] || !HasPrefix rest (lit "///")) && HasPrefix rest (lit "//") then
        let authority := (rest.drop 2).takeWhile (fun c => c != 47)
        let path := (rest.drop 2).dropWhile (fun c => c != 47)
        match parseAuthority authority with
        | none => none
        | some host => (unescape .encodePath path).map (fun _ => host)
      else (unescape .encodePath rest).map (fun _ => [])

/-- Go `url.Parse`: `none` when it returns an error, otherwise `URL.Host`. -/
def Parse (rawURL : GoString) : Option GoString :=
  match parse (Cut rawURL 35).1 with
  | none => none
  | some host =>
    if (Cut rawURL 35).2.1 = [] then some host
    else (unescape .encodeFragment (Cut rawURL 35).2.1).map (fun _ => host)

/-! ## `normalizeDomain` -/

/-- The loop `for strings.HasSuffix(d, "/") { d = strings.TrimSuffix(d, "/") }`, `none` when
the fuel runs out. -/
def stripSlashLoop : Nat → GoString → Option GoString
  | 0, _ => none
  | fuel + 1, d =>
    if HasSuffix d (lit "/") then stripSlashLoop fuel (TrimSuffix d (lit "/")) else some d

/-- The same loop run with `len(d) + 1` iterations of fuel, which is enough since every
iteration removes one byte (`stripSlashLoop_total`). -/
def stripSlashes (d : GoString) : GoString :=
  (stripSlashLoop (d.length + 1) d).getD d

/-- Source `normalizeDomain`. `url.Parse` gives `some u.Host` when `err == nil`. -/
def normalizeDomain (line : GoString) : GoString :=
  let d := TrimSpace line
  if d = [] then []
  else
    let d :=
      if HasPrefix d (lit "http://") || HasPrefix d (lit "https://") then
        match Parse d with
        | some host =>
          if host ≠ [] then host
          else TrimPrefix (TrimPrefix d (lit "http://")) (lit "https://")
        | none => TrimPrefix (TrimPrefix d (lit "http://")) (lit "https://")
      else d
    stripSlashes d

/-! ## Target resolution: `pipedInputDomains` and the first part of `main` -/

/-- Source `targetDomain`. -/
structure targetDomain where
  Name : GoString
  Exact : Bool
  deriving DecidableEq, Repr

/-- What `os.Stdin` is when the program starts: `Stat` fails, it is a character device, or it
is a pipe or file that the line scanner reads as `lines`, with `scanErr` telling whether
`scanner.Err()` is non-nil at the end. -/
inductive Stdin where
  | statError
  | terminal
  | piped (lines : List GoString) (scanErr : Bool)

/-- The scanner loop of `pipedInputDomains`, `ds` being the slice built so far. -/
def pipedLoop : List GoString → List GoString → List GoString
  | [], ds => ds
  | line :: rest, ds =>
    if TrimSpace line = [] then pipedLoop rest ds
    else
      let norm := normalizeDomain line
      if norm ≠ [] then pipedLoop rest (ds ++ [norm]) else pipedLoop rest ds

/-- Source `pipedInputDomains`: the slice it returns and whether the error is non-nil. -/
def pipedInputDomains : Stdin → List GoString × Bool
  | .statError => ([], true)
  | .terminal => ([], false)
  | .piped lines scanErr => if scanErr then ([], true) else (pipedLoop lines [], false)

/-- The flags of `main` that take part in target resolution: `-d`, `-u` and `-dl`. -/
structure Flags where
  domain : GoString
  domainExact : GoString
  domainList : GoString

/-- The scanner loop of `main` over the domain list file, `targets` being the slice built so
far. -/
def listLoop : List GoString → List targetDomain → List targetDomain
  | [], targets => targets
  | text :: rest, targets =>
    let line := TrimSpace text
    if line = [] || HasPrefix line (lit "#") then listLoop rest targets
    else
      let norm := normalizeDomain line
      if norm = [] then listLoop rest targets
      else listLoop rest (targets ++ [{ Name := norm, Exact := false }])

/-- The loop of `main` over `stdinDomains`. -/
def stdinLoop : List GoString → List targetDomain → List targetDomain
  | [], targets => targets
  | d :: rest, targets => stdinLoop rest (targets ++ [{ Name := d, Exact := true }])

/-- The target resolution of `main` (the code from `var targets` to the test
`len(targets) == 0`): `none` when `main` returns early, otherwise `targets`. The argument
`file` is what opening and scanning the file named by `-dl` gives: `none` when `os.Open`
fails, otherwise the scanned lines and whether `scanner.Err()` is non-nil. -/
def resolveTargets (stdin : Stdin) (flags : Flags) (file : Option (List GoString × Bool)) :
    Option (List targetDomain) :=
  let stdinDomains := (pipedInputDomains stdin).1
  if stdinDomains.length > 0 then some (stdinLoop stdinDomains [])
  else if flags.domainList ≠ [] then
    match file with
    | none => none
    | some (lines, scanErr) => if scanErr then none else some (listLoop lines [])
  else
    let targets : List targetDomain := []
    let targets :=
      if flags.domain ≠ [] then
        let norm := normalizeDomain flags.domain
        if norm ≠ [] then targets ++ [{ Name := norm, Exact := false }] else targets
      else targets
    let targets :=
      if flags.domainExact ≠ [] then
        let norm := normalizeDomain flags.domainExact
        if norm ≠ [] then targets ++ [{ Name := norm, Exact := true }] else targets
      else targets
    some targets

/-! ## The archive fetcher: `streamURLs` -/

/-- Go `fmt.Sprintf` for a format whose only verb is `%s`, with one string argument: the
argument replaces the verb, every other byte is copied. -/
def Sprintf : GoString → GoString → GoString
  | [], _ => []
  | [c], _ => [c]
  | c :: v :: rest, arg =>
    if c = 37 ∧ v = 115 then arg ++ Sprintf rest arg else c :: Sprintf (v :: rest) arg

/-- The query URL `streamURLs` builds (its local `apiURL`). -/
def apiURL (td : targetDomain) : GoString :=
  if td.Exact then
    Sprintf (lit "https://web.archive.org/cdx/search/cdx?url=%s/*&collapse=urlkey&output=text&fl=original") td.Name
  else
    Sprintf (lit "https://web.archive.org/cdx/search/cdx?url=*.%s/*&collapse=urlkey&output=text&fl=original") td.Name

/-- Go `http.NewRequest("GET", url, nil)`: whether `err == nil`. The method is valid, so the
only error is that of `url.Parse`. -/
def NewRequest (url : GoString) : Bool := (Parse url).isSome

/-- What one call of `client.Do` gives: an error that is a `net.Error` with `Timeout()`, any
other error, or a response. The body of a response delivers `body` and then ends with
`io.EOF`, or with a read error when `readErr` is set. -/
inductive DoResult where
  | timeout
  | failure
  | response (body : GoString) (readErr : Bool)
  deriving DecidableEq

/-- The value of an integer as Go's `int64` holds it (two's complement wrap-around). -/
def wrapInt64 (x : Int) : Int :=
  (x + 9223372036854775808) % 18446744073709551616 - 9223372036854775808

/-- Go `time.Millisecond`: a `time.Duration` counts nanoseconds. -/
def Millisecond : Int := 1000000

/-- The argument of `time.Sleep` in `streamURLs`, a `time.Duration` in nanoseconds, as Go
computes it on 64-bit integers: `time.Duration(500*try) * time.Millisecond`. -/
def sleepNanoseconds (try_ : Int) : Int := wrapInt64 (wrapInt64 (500 * try_) * Millisecond)

/-- What `streamURLs` does to its surroundings, in order: a call of `client.Do` with a GET
request for `url`, or a call of `time.Sleep` with the duration `d`, in nanoseconds. -/
inductive Event where
  | request (url : GoString)
  | sleep (d : Int)
  deriving DecidableEq, Repr

/-- The state `streamURLs` acts on: the two global counters, the values sent on `out` (oldest
first), and the calls of `client.Do` and `time.Sleep` made, the latter with their duration in
nanoseconds. -/
structure World where
  timeoutErrors : Int
  otherErrors : Int
  out : List GoString
  events : List Event
  deriving DecidableEq, Repr

/-- The error of a `ReadString` call. -/
inductive ReadErr where
  | nil
  | EOF
  | other
  deriving DecidableEq

/-- Go `(*bufio.Reader).ReadString(10)` on a stream with unread bytes `data`: the bytes up to
and including the first newline with a nil error, or else all bytes left, with `io.EOF` or
the read error the stream ends with. The third component is what stays unread. -/
def ReadString (data : GoString) (readErr : Bool) : GoString × ReadErr × GoString :=
  if data.contains 10 then
    (data.takeWhile (fun c => c != 10) ++ [10], ReadErr.nil,
      (data.dropWhile (fun c => c != 10)).drop 1)
  else (data, if readErr then ReadErr.other else ReadErr.EOF, [])

/-- The send `out <- line`. -/
def World.send (w : World) (line : GoString) : World := { w with out := w.out ++ [line] }

/-- The inner loop of `streamURLs` over the response body; `none` when the fuel runs out. -/
def bodyLoop (readErr : Bool) : Nat → GoString → World → Option World
  | 0, _, _ => none
  | fuel + 1, data, w =>
    match ReadString data readErr with
    | (line, ReadErr.EOF, _) =>
      let line := TrimSpace line
      some (if line ≠ [] then w.send line else w)
    | (_, ReadErr.other, _) => some { w with otherErrors := w.otherErrors + 1 }
    | (line, ReadErr.nil, unread) =>
      let urlStr := TrimSpace line
      bodyLoop readErr fuel unread (if urlStr ≠ [] then w.send urlStr else w)

/-- The outer loop of `streamURLs` with `try` failed attempts behind it; `client n` is what
the call number `n` of `client.Do` gives (counted from 0), and `none` means that the fuel ran
out. A body of `len` bytes is read with `len + 1` calls of `ReadString` at most. -/
def retryLoop (client : Nat → DoResult) (url : GoString) (retries : Int) :
    Nat → Nat → World → Option World
  | 0, _, _ => none
  | fuel + 1, try_, w =>
    if !NewRequest url then some { w with otherErrors := w.otherErrors + 1 }
    else
      let w := { w with events := w.events ++ [Event.request url] }
      match client try_ with
      | DoResult.response body readErr => bodyLoop readErr (body.length + 1) body w
      | DoResult.timeout =>
        let w := { w with timeoutErrors := w.timeoutErrors + 1 }
        if ((try_ + 1 : Nat) : Int) ≤ retries then
          retryLoop client url retries fuel (try_ + 1)
            { w with
              events := w.events ++ [Event.sleep (sleepNanoseconds ((try_ + 1 : Nat) : Int))] }
        else some w
      | DoResult.failure =>
        let w := { w with otherErrors := w.otherErrors + 1 }
        if ((try_ + 1 : Nat) : Int) ≤ retries then
          retryLoop client url retries fuel (try_ + 1)
            { w with
              events := w.events ++ [Event.sleep (sleepNanoseconds ((try_ + 1 : Nat) : Int))] }
        else some w

/-- Source `streamURLs`. The loop makes `retries + 1` attempts at most, one when `retries`
is negative, which bounds the fuel. -/
def streamURLs (td : targetDomain) (client : Nat → DoResult) (retries : Int) (w : World) :
    Option World :=
  retryLoop client (apiURL td) retries (retries.toNat + 1) 0 w

/-! ## Predicates used in the statements -/

/-- No rune of the set is a proper prefix of another one. -/
def PrefixFree (runes : List GoString) : Prop :=
  ∀ a ∈ runes, ∀ b ∈ runes, a <+: b → a = b

/-- An ASCII byte that is not white space. -/
def plainByte (c : Nat) : Bool :=
  c < 128 && !(c == 9 || c == 10 || c == 11 || c == 12 || c == 13 || c == 32)

/-- A byte of a plain host name: a letter, a digit, `.` or `-`. -/
def hostByte (c : Nat) : Bool := isAlpha c || isDigit c || c == 46 || c == 45

/-- Whether a call of `client.Do` returned an error. -/
def DoResult.isError : DoResult → Bool
  | .response _ _ => false
  | _ => true

/-- Whether a call of `client.Do` returned a timeout error. -/
def DoResult.isTimeout : DoResult → Bool
  | .timeout => true
  | _ => false

/-- Whether a call of `client.Do` returned an error that is not a timeout. -/
def DoResult.isOther : DoResult → Bool
  | .failure => true
  | _ => false

/-- The pieces of a text between its newline bytes (`strings.Split(body, "\n")`); the last
piece is what follows the last newline. -/
def splitNewline : GoString → List GoString
  | [] => [[]]
  | c :: rest =>
    if c = 10 then [] :: splitNewline rest
    else
      match splitNewline rest with
      | p :: ps => (c :: p) :: ps
      | [] => [[c]]

/-- The Result Lines of a response body as the specification words them: split the body at
newlines, trim each piece, drop the pieces that are empty after trimming. -/
def specLines (body : GoString) : List GoString :=
  ((splitNewline body).map TrimSpace).filter (fun l => l ≠ [])

/-- The Result Lines of the complete (newline-terminated) lines of a body. -/
def specCompleteLines (body : GoString) : List GoString :=
  ((splitNewline body).dropLast.map TrimSpace).filter (fun l => l ≠ [])

/-- The events of `n` failed attempts that are each followed by a retry: attempt `k` and then
the wait Go computes for `500 * k` milliseconds, for `k = 1, ..., n`. -/
def backoffEvents (url : GoString) (n : Nat) : List Event :=
  (List.range n).flatMap
    (fun k => [Event.request url, Event.sleep (sleepNanoseconds ((k + 1 : Nat) : Int))])

/-- The waits among a list of events, in order. -/
def sleepsOf (es : List Event) : List Int :=
  es.filterMap (fun e => match e with
    | Event.sleep d => some d
    | Event.request _ => none)

/-- The URLs of the requests among a list of events, in order. -/
def requestsOf (es : List Event) : List GoString :=
  es.filterMap (fun e => match e with
    | Event.sleep _ => none
    | Event.request url => some url)

/-- The number of calls of `client.Do` among the calls number `lo, ..., lo + n - 1` whose
result satisfies `p`. -/
def countCalls (p : DoResult → Bool) (client : Nat → DoResult) : Nat → Nat → Nat
  | _, 0 => 0
  | lo, n + 1 => (if p (client lo) then 1 else 0) + countCalls p client (lo + 1) n

/-- The events of `n` failed attempts that are each followed by a retry, the first of them
being attempt `lo + 1`. -/
def backoffFrom (url : GoString) : Nat → Nat → List Event
  | _, 0 => []
  | lo, n + 1 =>
    [Event.request url, Event.sleep (sleepNanoseconds ((lo + 1 : Nat) : Int))]
      ++ backoffFrom url (lo + 1) n

/-- Whether a text begins with `http://` or `https://`, the test of `normalizeDomain`. -/
def hasScheme (d : GoString) : Bool :=
  HasPrefix d (lit "http://") || HasPrefix d (lit "https://")

/-- The targets of a domain list file as the specification words them: one target per line
that is non-blank and not a comment, named by the normalization of the line, not exact. -/
def specListTargets (lines : List GoString) : List targetDomain :=
  (lines.filter (fun l => decide (TrimSpace l ≠ []) && !HasPrefix (TrimSpace l) (lit "#"))).map
    (fun l => { Name := normalizeDomain l, Exact := false })

/-- The targets of a domain list file as the code builds them: the lines of
`specListTargets` whose normalization is not empty. -/
def listTargets (lines : List GoString) : List targetDomain :=
  (lines.filter (fun l => decide (TrimSpace l ≠ []) && !HasPrefix (TrimSpace l) (lit "#")
      && decide (normalizeDomain l ≠ []))).map
    (fun l => { Name := normalizeDomain l, Exact := false })

/-- The targets of piped lines: one exact target per line whose normalization is not
empty. -/
def pipedTargets (lines : List GoString) : List targetDomain :=
  ((lines.map normalizeDomain).filter (fun d => d ≠ [])).map
    (fun d => { Name := d, Exact := true })

/-! ## The worker pool of `main`

The goroutines of `main` as a transition system: the feeder, the workers, the closer that
waits for the wait group, and the output loop. A schedule is a list of actions, each one
atomic step of one goroutine; an action that is not enabled in a state (a blocked channel
operation, a `wg.Wait()` that has to wait) has no successor. Workers are not told apart: the
state counts those waiting at `range targetChan` and those that have returned, and lists the
calls of `streamURLs` in progress. -/

/-- The state of the pool. -/
structure Pool where
  /-- The targets the feeder has still to send. -/
  unfed : List targetDomain
  /-- The buffer of `targetChan`, whose capacity `len(targets)` is never exceeded. -/
  targetChan : List targetDomain
  /-- Whether `targetChan` is closed. -/
  targetClosed : Bool
  /-- The workers waiting at `for td := range targetChan`. -/
  idle : Nat
  /-- The calls of `streamURLs` in progress: the target and the number of lines sent. -/
  busy : List (targetDomain × Nat)
  /-- The workers that have returned, each having called `wg.Done()`. -/
  done : Nat
  /-- The workers started, each after a `wg.Add(1)`. -/
  spawned : Nat
  /-- The calls of `streamURLs` that have returned: the target and the number of lines sent. -/
  log : List (targetDomain × Nat)
  /-- The buffer of `urlChan`, of capacity 1000. -/
  urlChan : List GoString
  /-- Whether `urlChan` is closed. -/
  urlClosed : Bool
  /-- The lines the output loop has printed. -/
  printed : List GoString
  /-- The counter `total` of the output loop. -/
  total : Nat
  deriving DecidableEq, Repr

/-- The pool when the goroutines have been started: `workers` is the value of `-w`, and the
loop `for i := 0; i < *workers; i++` starts no worker when it is zero or negative. -/
def Pool.init (workers : Int) (targets : List targetDomain) : Pool :=
  { unfed := targets, targetChan := [], targetClosed := false,
    idle := workers.toNat, busy := [], done := 0, spawned := workers.toNat,
    log := [], urlChan := [], urlClosed := false, printed := [], total := 0 }

/-- The empty state: counters at zero, nothing sent, nothing done. -/
def World.init : World := { timeoutErrors := 0, otherErrors := 0, out := [], events := [] }

/-- The wildcard target `foo.com`. -/
def fooTarget : targetDomain := { Name := lit "foo.com", Exact := false }

/-- A two-line body whose last line has no newline. -/
def twoLines : GoString := lit "http://foo.com/a" ++ [10] ++ lit "http://foo.com/b"

/-- A client whose first call times out and whose later calls answer with `twoLines`. -/
def flakyClient (n : Nat) : DoResult :=
  if n < 1 then DoResult.timeout else DoResult.response twoLines false

/-- A client whose every call times out. -/
def deadClient (_ : Nat) : DoResult := DoResult.timeout

/-- A client whose every call answers with `twoLines`. -/
def goodClient (_ : Nat) : DoResult := DoResult.response twoLines false

/-- A line with a tab between two words, as a tab separated list has them. -/
def tabLine : GoString := lit "example.com" ++ [9] ++ lit "staging"

/-- No flag set. -/
def noFlags : Flags := { domain := [], domainExact := [], domainList := [] }

/-- The list file of the specification's example. -/
def exampleList : List GoString :=
  [lit "example.com", lit "# comment", lit "", lit "other.com"]

/-- Flags that name a list file. -/
def listFlags : Flags := { domain := [], domainExact := [], domainList := lit "domains.txt" }

/-- Flags that set `-d example.com` and `-u example.org` and name a list file. -/
def allFlags : Flags :=
  { domain := lit "example.com", domainExact := lit "example.org",
    domainList := lit "domains.txt" }

theorem leadingRune_eq_none {runes : List GoString} {s : GoString} :
    leadingRune runes s = none ↔ ∀ r ∈ runes, ¬ r <+: s := by
  simp [leadingRune, List.find?_eq_none]

theorem leadingRune_eq_some {runes : List GoString} {s r : GoString}
    (h : leadingRune runes s = some r) : r ∈ runes ∧ r <+: s := by
  unfold leadingRune at h
  exact ⟨List.mem_of_find?_eq_some h, by simpa using List.find?_some h⟩

theorem trimLeftLoop_of_none {runes : List GoString} {s : GoString}
    (h : leadingRune runes s = none) (fuel : Nat) : trimLeftLoop runes fuel s = s := by
  cases fuel with
  | zero => rfl
  | succ n => simp [trimLeftLoop, h]

theorem trimLeftLoop_suffix (runes : List GoString) :
    ∀ (fuel : Nat) (s : GoString), trimLeftLoop runes fuel s <:+ s := by
  intro fuel
  induction fuel with
  | zero => intro s; exact List.suffix_refl s
  | succ n ih =>
    intro s
    unfold trimLeftLoop
    cases h : leadingRune runes s with
    | none => exact List.suffix_refl s
    | some r => exact (ih _).trans (List.drop_suffix _ _)

theorem trimLeftLoop_clean {runes : List GoString} (hne : ∀ r ∈ runes, r ≠ []) :
    ∀ (fuel : Nat) (s : GoString), s.length ≤ fuel →
      leadingRune runes (trimLeftLoop runes fuel s) = none := by
  intro fuel
  induction fuel with
  | zero =>
    intro s hs
    have : s = [] := List.length_eq_zero.mp (Nat.le_zero.mp hs)
    subst this
    rw [trimLeftLoop, leadingRune_eq_none]
    intro r hr hp
    exact hne r hr (List.prefix_nil.mp hp)
  | succ n ih =>
    intro s hs
    unfold trimLeftLoop
    cases h : leadingRune runes s with
    | none => simpa using h
    | some r =>
      have hr := leadingRune_eq_some h
      have hpos : 0 < r.length := List.length_pos.mpr (hne r hr.1)
      apply ih
      have := hr.2.length_le
      simp only [List.length_drop]
      omega

theorem trimLeftLoop_fuel {runes : List GoString} (hne : ∀ r ∈ runes, r ≠ []) :
    ∀ (f1 f2 : Nat) (s : GoString), s.length ≤ f1 → s.length ≤ f2 →
      trimLeftLoop runes f1 s = trimLeftLoop runes f2 s := by
  intro f1
  induction f1 with
  | zero =>
    intro f2 s h1 _
    have : s = [] := List.length_eq_zero.mp (Nat.le_zero.mp h1)
    subst this
    have hn : leadingRune runes [] = none := by
      rw [leadingRune_eq_none]
      intro r hr hp
      exact hne r hr (List.prefix_nil.mp hp)
    rw [trimLeftLoop_of_none hn, trimLeftLoop_of_none hn]
  | succ n ih =>
    intro f2 s h1 h2
    cases h : leadingRune runes s with
    | none => rw [trimLeftLoop_of_none h, trimLeftLoop_of_none h]
    | some r =>
      have hr := leadingRune_eq_some h
      have hpos : 0 < r.length := List.length_pos.mpr (hne r hr.1)
      have hle := hr.2.length_le
      cases f2 with
      | zero =>
        exfalso
        omega
      | succ m =>
        simp only [trimLeftLoop, h]
        apply ih <;> simp only [List.length_drop] <;> omega

theorem leadingRune_append {runes : List GoString} (hpf : PrefixFree runes) {r : GoString}
    (hr : r ∈ runes) (s : GoString) : leadingRune runes (r ++ s) = some r := by
  cases h : leadingRune runes (r ++ s) with
  | none =>
    rw [leadingRune_eq_none] at h
    exact absurd (List.prefix_append r s) (h r hr)
  | some q =>
    have hq := leadingRune_eq_some h
    have hrs : r <+: r ++ s := List.prefix_append r s
    rcases Nat.le_total q.length r.length with hl | hl
    · rw [hpf q hq.1 r hr (List.prefix_of_prefix_length_le hq.2 hrs hl)]
    · rw [hpf r hr q hq.1 (List.prefix_of_prefix_length_le hrs hq.2 hl)]

theorem trimLeft_rune_append {runes : List GoString} (hne : ∀ r ∈ runes, r ≠ [])
    (hpf : PrefixFree runes) {r : GoString} (hr : r ∈ runes) (s : GoString) :
    trimLeft runes (r ++ s) = trimLeft runes s := by
  have hpos : 0 < r.length := List.length_pos.mpr (hne r hr)
  unfold trimLeft
  obtain ⟨n, hn⟩ : ∃ n, (r ++ s).length = n + 1 := ⟨r.length + s.length - 1, by simp; omega⟩
  rw [hn]
  simp only [trimLeftLoop, leadingRune_append hpf hr, List.drop_left]
  apply trimLeftLoop_fuel hne
  · simp at hn; omega
  · exact Nat.le_refl _

theorem trimLeft_join_append {runes : List GoString} (hne : ∀ r ∈ runes, r ≠ [])
    (hpf : PrefixFree runes) (pre : List GoString) (hpre : ∀ r ∈ pre, r ∈ runes)
    (s : GoString) : trimLeft runes (pre.flatten ++ s) = trimLeft runes s := by
  induction pre with
  | nil => simp
  | cons r pre ih =>
    rw [List.flatten_cons, List.append_assoc, trimLeft_rune_append hne hpf (hpre r (by simp))]
    exact ih (fun q hq => hpre q (by simp [hq]))

theorem spaceRunes_ne_nil : ∀ r ∈ spaceRunes, r ≠ [] := by decide

theorem spaceRunes_prefixFree : PrefixFree spaceRunes := by
  unfold PrefixFree
  simp only [← List.isPrefixOf_iff_prefix]
  decide

theorem revRunes_ne_nil : ∀ r ∈ spaceRunes.map List.reverse, r ≠ [] := by decide

theorem revRunes_prefixFree : PrefixFree (spaceRunes.map List.reverse) := by
  unfold PrefixFree
  simp only [← List.isPrefixOf_iff_prefix]
  decide

theorem leadingRune_nil {runes : List GoString} (hne : ∀ r ∈ runes, r ≠ []) :
    leadingRune runes [] = none := by
  rw [leadingRune_eq_none]
  intro r hr hp
  exact hne r hr (List.prefix_nil.mp hp)

theorem trimLeft_of_none {runes : List GoString} {s : GoString}
    (h : leadingRune runes s = none) : trimLeft runes s = s :=
  trimLeftLoop_of_none h _

theorem trimLeft_clean {runes : List GoString} (hne : ∀ r ∈ runes, r ≠ []) (s : GoString) :
    leadingRune runes (trimLeft runes s) = none :=
  trimLeftLoop_clean hne _ _ (Nat.le_refl _)

theorem trimLeft_suffix (runes : List GoString) (s : GoString) : trimLeft runes s <:+ s :=
  trimLeftLoop_suffix runes _ _

theorem trimLeft_nil (runes : List GoString) : trimLeft runes [] = [] := rfl

theorem leadingRune_of_plain {runes : List GoString}
    (h : ∀ r ∈ runes, r.head?.map plainByte = some false) {c : Nat} (t : GoString)
    (hc : plainByte c = true) : leadingRune runes (c :: t) = none := by
  rw [leadingRune_eq_none]
  intro r hr hp
  have h1 := h r hr
  cases r with
  | nil => simp at h1
  | cons a r2 =>
    have hac : a = c := (List.cons_prefix_cons.mp hp).1
    subst hac
    simp [hc] at h1

theorem spaceRunes_head : ∀ r ∈ spaceRunes, r.head?.map plainByte = some false := by decide

theorem revRunes_head :
    ∀ r ∈ spaceRunes.map List.reverse, r.head?.map plainByte = some false := by decide

/-- White space around a text that starts and ends with a plain byte is trimmed away. -/
theorem TrimSpace_surrounded (pre post : List GoString) (x : GoString)
    (hpre : ∀ r ∈ pre, r ∈ spaceRunes) (hpost : ∀ r ∈ post, r ∈ spaceRunes)
    (hhead : (x.head?.map plainByte) = some true)
    (hlast : (x.getLast?.map plainByte) = some true) :
    TrimSpace (pre.flatten ++ x ++ post.flatten) = x := by
  obtain ⟨c, t, rfl⟩ : ∃ c t, x = c :: t := by
    cases x with
    | nil => simp at hhead
    | cons c t => exact ⟨c, t, rfl⟩
  have hc : plainByte c = true := by simpa using hhead
  unfold TrimSpace
  rw [List.append_assoc, trimLeft_join_append spaceRunes_ne_nil spaceRunes_prefixFree pre hpre,
    List.cons_append, trimLeft_of_none (leadingRune_of_plain spaceRunes_head _ hc)]
  rw [← List.cons_append, List.reverse_append, List.reverse_flatten,
    trimLeft_join_append revRunes_ne_nil revRunes_prefixFree]
  · obtain ⟨d, u, hu⟩ : ∃ d u, (c :: t).reverse = d :: u := by
      cases h : (c :: t).reverse with
      | nil => simp at h
      | cons d u => exact ⟨d, u, rfl⟩
    have hd : plainByte d = true := by
      have : (c :: t).getLast? = some d := by
        rw [List.getLast?_eq_head?_reverse, hu]; rfl
      rw [this] at hlast
      simpa using hlast
    rw [hu, trimLeft_of_none (leadingRune_of_plain revRunes_head _ hd), ← hu, List.reverse_reverse]
  · intro r hr
    simp only [List.mem_reverse, List.mem_map] at hr
    obtain ⟨q, hq, rfl⟩ := hr
    exact List.mem_map.mpr ⟨q, hpost q hq, rfl⟩

/-- `TrimSpace` leaves its own results alone. -/
theorem TrimSpace_idem (s : GoString) : TrimSpace (TrimSpace s) = TrimSpace s := by
  have hu := trimLeft_clean spaceRunes_ne_nil s
  have hv := trimLeft_clean revRunes_ne_nil (trimLeft spaceRunes s).reverse
  have hsuf := trimLeft_suffix (spaceRunes.map List.reverse) (trimLeft spaceRunes s).reverse
  have hpre : TrimSpace s <+: trimLeft spaceRunes s := by
    unfold TrimSpace
    exact List.reverse_suffix.mp (by simpa using hsuf)
  have ht : leadingRune spaceRunes (TrimSpace s) = none := by
    rw [leadingRune_eq_none] at hu ⊢
    intro r hr hp
    exact hu r hr (hp.trans hpre)
  have hrev : (TrimSpace s).reverse
      = trimLeft (spaceRunes.map List.reverse) (trimLeft spaceRunes s).reverse := by
    unfold TrimSpace
    rw [List.reverse_reverse]
  show (trimLeft (spaceRunes.map List.reverse) (trimLeft spaceRunes (TrimSpace s)).reverse).reverse
    = TrimSpace s
  rw [trimLeft_of_none ht, hrev, trimLeft_of_none hv, ← hrev, List.reverse_reverse]

/-- A string with no leading and no trailing white space rune is left alone. -/
theorem TrimSpace_of_clean {s : GoString} (h1 : leadingRune spaceRunes s = none)
    (h2 : leadingRune (spaceRunes.map List.reverse) s.reverse = none) : TrimSpace s = s := by
  unfold TrimSpace
  rw [trimLeft_of_none h1, trimLeft_of_none h2, List.reverse_reverse]

theorem TrimSpace_clean (s : GoString) :
    leadingRune spaceRunes (TrimSpace s) = none ∧
    leadingRune (spaceRunes.map List.reverse) (TrimSpace s).reverse = none := by
  have hu := trimLeft_clean spaceRunes_ne_nil s
  have hv := trimLeft_clean revRunes_ne_nil (trimLeft spaceRunes s).reverse
  have hsuf := trimLeft_suffix (spaceRunes.map List.reverse) (trimLeft spaceRunes s).reverse
  have hpre : TrimSpace s <+: trimLeft spaceRunes s := by
    unfold TrimSpace
    exact List.reverse_suffix.mp (by simpa using hsuf)
  constructor
  · rw [leadingRune_eq_none] at hu ⊢
    intro r hr hp
    exact hu r hr (hp.trans hpre)
  · unfold TrimSpace
    rw [List.reverse_reverse]
    exact hv

theorem TrimSpace_nil : TrimSpace [] = [] := rfl

/-! ### A trailing newline -/

theorem prefix_of_prefix_snoc {r l : GoString} {a : Nat} (hr : 2 ≤ r.length → a ∉ r)
    (hl : l ≠ []) (hp : r <+: l ++ [a]) : r <+: l := by
  rcases Nat.lt_or_ge l.length r.length with h | h
  · exfalso
    have hlen : r.length = (l ++ [a]).length := by
      have := hp.length_le
      simp at this ⊢
      omega
    have heq : r = l ++ [a] := hp.eq_of_length hlen
    have h2 : 2 ≤ r.length := by
      have := List.length_pos.mpr hl
      omega
    exact hr h2 (by simp [heq])
  · exact List.prefix_of_prefix_length_le hp (List.prefix_append l [a]) h

theorem trimLeft_snoc {runes : List GoString} (hne : ∀ r ∈ runes, r ≠ [])
    (hpf : PrefixFree runes) {a : Nat} (ha : [a] ∈ runes)
    (hfar : ∀ r ∈ runes, 2 ≤ r.length → a ∉ r) :
    ∀ (n : Nat) (l : GoString), l.length ≤ n →
      trimLeft runes (l ++ [a]) =
        if trimLeft runes l = [] then [] else trimLeft runes l ++ [a] := by
  intro n
  induction n with
  | zero =>
    intro l hl
    have : l = [] := List.length_eq_zero.mp (Nat.le_zero.mp hl)
    subst this
    have h1 := trimLeft_rune_append hne hpf ha []
    simp only [List.append_nil] at h1
    simp [h1, trimLeft_nil]
  | succ m ih =>
    intro l hl
    cases hlr : leadingRune runes l with
    | none =>
      rw [trimLeft_of_none hlr]
      by_cases hnil : l = []
      · subst hnil
        have h1 := trimLeft_rune_append hne hpf ha []
        simp only [List.append_nil] at h1
        simp [h1, trimLeft_nil]
      · have h1 : leadingRune runes (l ++ [a]) = none := by
          rw [leadingRune_eq_none] at hlr ⊢
          intro r hr hp
          exact hlr r hr (prefix_of_prefix_snoc (hfar r hr) hnil hp)
        rw [trimLeft_of_none h1, if_neg hnil]
    | some r =>
      have hr := leadingRune_eq_some hlr
      obtain ⟨t, rfl⟩ := hr.2
      have hpos : 0 < r.length := List.length_pos.mpr (hne r hr.1)
      have htl : t.length ≤ m := by
        simp at hl
        omega
      rw [List.append_assoc, trimLeft_rune_append hne hpf hr.1,
        trimLeft_rune_append hne hpf hr.1]
      exact ih t htl

theorem newline_far : ∀ r ∈ spaceRunes, 2 ≤ r.length → 10 ∉ r := by decide

theorem newline_mem : [10] ∈ spaceRunes := by decide

theorem newline_mem_rev : [10] ∈ spaceRunes.map List.reverse := by decide

/-- The line terminator that `ReadString` leaves on a line is trimmed away. -/
theorem TrimSpace_snoc_newline (l : GoString) : TrimSpace (l ++ [10]) = TrimSpace l := by
  unfold TrimSpace
  rw [trimLeft_snoc spaceRunes_ne_nil spaceRunes_prefixFree newline_mem newline_far _ l
    (Nat.le_refl _)]
  by_cases h : trimLeft spaceRunes l = []
  · rw [if_pos h, h]
  · rw [if_neg h, List.reverse_append, List.reverse_singleton,
      trimLeft_rune_append revRunes_ne_nil revRunes_prefixFree newline_mem_rev]

/-! ## Lemmas on the trailing-slash loop -/

theorem HasSuffix_nil_slash : HasSuffix [] (lit "/") = false := rfl

theorem HasSuffix_snoc_slash (x : GoString) (c : Nat) :
    HasSuffix (x ++ [c]) (lit "/") = (c == 47) := by
  have h : lit "/" = [47] := rfl
  rw [h]
  simp [HasSuffix, List.isPrefixOf, eq_comm]

theorem TrimSuffix_snoc_slash (x : GoString) : TrimSuffix (x ++ [47]) (lit "/") = x := by
  unfold TrimSuffix
  rw [HasSuffix_snoc_slash]
  have h : lit "/" = [47] := rfl
  simp [h]

theorem nil_or_snoc (d : GoString) : d = [] ∨ ∃ x c, d = x ++ [c] := by
  rcases List.eq_nil_or_concat d with h | ⟨x, c, h⟩
  · exact Or.inl h
  · exact Or.inr ⟨x, c, by rw [h, List.concat_eq_append]⟩

theorem stripSlashLoop_spec : ∀ (fuel : Nat) (d : GoString), d.length < fuel →
    ∃ r k, stripSlashLoop fuel d = some r ∧ HasSuffix r (lit "/") = false ∧
      d = r ++ List.replicate k 47 := by
  intro fuel
  induction fuel with
  | zero => intro d hd; omega
  | succ n ih =>
    intro d hd
    rcases nil_or_snoc d with rfl | ⟨x, c, rfl⟩
    · exact ⟨[], 0, by simp [stripSlashLoop, HasSuffix_nil_slash], HasSuffix_nil_slash, by simp⟩
    · by_cases hc : c = 47
      · subst hc
        have hx : x.length < n := by simp at hd; omega
        obtain ⟨r, k, h1, h2, h3⟩ := ih x hx
        refine ⟨r, k + 1, ?_, h2, ?_⟩
        · rw [stripSlashLoop, HasSuffix_snoc_slash, TrimSuffix_snoc_slash]
          simpa using h1
        · rw [List.replicate_succ', ← List.append_assoc, ← h3]
      · refine ⟨x ++ [c], 0, ?_, ?_, by simp⟩
        · rw [stripSlashLoop, HasSuffix_snoc_slash]
          simp [hc]
        · rw [HasSuffix_snoc_slash]
          simp [hc]

/-- The fuel of `stripSlashes` is enough: the loop exits by its own condition. -/
theorem stripSlashLoop_total (d : GoString) :
    stripSlashLoop (d.length + 1) d = some (stripSlashes d) := by
  obtain ⟨r, k, h1, _, _⟩ := stripSlashLoop_spec (d.length + 1) d (Nat.lt_succ_self _)
  simp [stripSlashes, h1]

theorem stripSlashLoop_replicate {h : GoString} (hh : HasSuffix h (lit "/") = false) :
    ∀ (k fuel : Nat), k < fuel → stripSlashLoop fuel (h ++ List.replicate k 47) = some h := by
  intro k
  induction k with
  | zero =>
    intro fuel hf
    obtain ⟨n, rfl⟩ : ∃ n, fuel = n + 1 := ⟨fuel - 1, by omega⟩
    simp [stripSlashLoop, hh]
  | succ k ih =>
    intro fuel hf
    obtain ⟨n, rfl⟩ : ∃ n, fuel = n + 1 := ⟨fuel - 1, by omega⟩
    rw [List.replicate_succ', ← List.append_assoc, stripSlashLoop, HasSuffix_snoc_slash,
      TrimSuffix_snoc_slash]
    simpa using ih n (by omega)

theorem stripSlashes_replicate {h : GoString} (hh : HasSuffix h (lit "/") = false) (k : Nat) :
    stripSlashes (h ++ List.replicate k 47) = h := by
  unfold stripSlashes
  rw [stripSlashLoop_replicate hh k _ (by simp; omega)]
  rfl

theorem stripSlashes_of_clean {d : GoString} (hd : HasSuffix d (lit "/") = false) :
    stripSlashes d = d := by
  simpa using stripSlashes_replicate hd 0

theorem HasSuffix_slash_of_last {d : GoString} (h : (d.getLast?.map plainByte) = some true)
    (h47 : d.getLast? ≠ some 47) : HasSuffix d (lit "/") = false := by
  rcases nil_or_snoc d with rfl | ⟨x, c, rfl⟩
  · rfl
  · rw [HasSuffix_snoc_slash]
    simp at h47
    simp [h47]

/-! ## `url.Parse` on a plain host behind a scheme -/

theorem hostByte_facts {c : Nat} (hc : hostByte c = true) :
    c ≠ 37 ∧ c ≠ 35 ∧ c ≠ 63 ∧ c ≠ 64 ∧ c ≠ 58 ∧ c ≠ 47 ∧ c ≠ 91 ∧ 32 ≤ c ∧ c < 127 ∧
      shouldEscapeHost c = false ∧ plainByte c = true := by
  simp only [hostByte, isAlpha, isDigit, Bool.or_eq_true, Bool.and_eq_true, decide_eq_true_eq,
    beq_iff_eq] at hc
  have hr : (97 ≤ c ∧ c ≤ 122) ∨ (65 ≤ c ∧ c ≤ 90) ∨ (48 ≤ c ∧ c ≤ 57) ∨ c = 46 ∨ c = 45 := by
    omega
  refine ⟨by omega, by omega, by omega, by omega, by omega, by omega, by omega, by omega,
    by omega, ?_, ?_⟩
  · rcases hr with h | h | h | h | h
    · simp [shouldEscapeHost, isAlpha, h.1, h.2]
    · simp [shouldEscapeHost, isAlpha, h.1, h.2]
    · simp [shouldEscapeHost, isDigit, h.1, h.2]
    · subst h; decide
    · subst h; decide
  · simp only [plainByte, Bool.and_eq_true, decide_eq_true_eq, Bool.not_eq_true',
      Bool.or_eq_false_iff, beq_eq_false_iff_ne, ne_eq]
    omega

theorem Cut_of_not_mem {s : GoString} {sep : Nat} (h : sep ∉ s) :
    Cut s sep = (s, [], false) := by
  have h1 : ∀ c ∈ s, (c != sep) = true := by
    intro c hc
    simp only [bne_iff_ne, ne_eq]
    rintro rfl
    exact h hc
  have h2 : s.takeWhile (fun c => c != sep) = s := List.takeWhile_eq_self_iff.mpr h1
  have h3 : s.dropWhile (fun c => c != sep) = [] := List.dropWhile_eq_nil_iff.mpr h1
  simp [Cut, h2, h3, h]

theorem LastIndexByte_of_not_mem {s : GoString} {sep : Nat} (h : sep ∉ s) :
    LastIndexByte s sep = none := by
  simp [LastIndexByte, h]

theorem unescape_host_plain : ∀ (h : GoString), (∀ c ∈ h, hostByte c = true) →
    unescape .encodeHost h = some h := by
  intro h
  induction h with
  | nil => intro _; rfl
  | cons c t ih =>
    intro hh
    have hc := hostByte_facts (hh c (by simp))
    have ht := ih (fun d hd => hh d (by simp [hd]))
    unfold unescape
    simp [hc.1, hc.2.2.2.2.2.2.2.2.2.1, ht]

theorem unescape_path_slashes (k : Nat) :
    unescape .encodePath (List.replicate k 47) = some (List.replicate k 47) := by
  induction k with
  | zero => rfl
  | succ k ih =>
    rw [List.replicate_succ]
    unfold unescape
    simp [ih]

theorem takeWhile_host_slashes (h : GoString) (hh : ∀ c ∈ h, hostByte c = true) (k : Nat) :
    (h ++ List.replicate k 47).takeWhile (fun c => c != 47) = h := by
  rw [List.takeWhile_append_of_pos]
  · simp [List.takeWhile_replicate]
  · intro c hc
    simpa using (hostByte_facts (hh c hc)).2.2.2.2.2.1

theorem dropWhile_host_slashes (h : GoString) (hh : ∀ c ∈ h, hostByte c = true) (k : Nat) :
    (h ++ List.replicate k 47).dropWhile (fun c => c != 47) = List.replicate k 47 := by
  rw [List.dropWhile_append_of_pos]
  · simp [List.dropWhile_replicate]
  · intro c hc
    simpa using (hostByte_facts (hh c hc)).2.2.2.2.2.1

theorem parseAuthority_plain (h : GoString) (hh : ∀ c ∈ h, hostByte c = true) (hne : h ≠ []) :
    parseAuthority h = some h := by
  have h64 : 64 ∉ h := fun hm => (hostByte_facts (hh 64 hm)).2.2.2.1 rfl
  have h58 : 58 ∉ h := fun hm => (hostByte_facts (hh 58 hm)).2.2.2.2.1 rfl
  have hbr : HasPrefix h (lit "[") = false := by
    cases h with
    | nil => exact absurd rfl hne
    | cons c t =>
      have hc := (hostByte_facts (hh c (by simp))).2.2.2.2.2.2.1
      have hl : lit "[" = [91] := rfl
      simp [HasPrefix, hl, List.isPrefixOf, Ne.symm hc]
  rw [parseAuthority, LastIndexByte_of_not_mem h64]
  simp only [parseHost, hbr, LastIndexByte_of_not_mem h58]
  exact unescape_host_plain h hh

/-- The bytes after the scheme: a plain host and slashes. -/
theorem parse_tail_plain (h : GoString) (hh : ∀ c ∈ h, hostByte c = true) (k : Nat) :
    35 ∉ h ++ List.replicate k 47 ∧ 63 ∉ h ++ List.replicate k 47 ∧
      stringContainsCTLByte (h ++ List.replicate k 47) = false := by
  refine ⟨?_, ?_, ?_⟩
  · intro hm
    rcases List.mem_append.mp hm with hm | hm
    · exact (hostByte_facts (hh 35 hm)).2.1 rfl
    · simp at hm
  · intro hm
    rcases List.mem_append.mp hm with hm | hm
    · exact (hostByte_facts (hh 63 hm)).2.2.1 rfl
    · simp at hm
  · simp only [stringContainsCTLByte, List.any_eq_false, Bool.or_eq_true, decide_eq_true_eq,
      beq_iff_eq, not_or]
    intro c hm
    rcases List.mem_append.mp hm with hm | hm
    · have := hostByte_facts (hh c hm)
      omega
    · have : c = 47 := (List.mem_replicate.mp hm).2
      omega

theorem Parse_plain (scheme : GoString)
    (hs : scheme = lit "http://" ∨ scheme = lit "https://") (h : GoString)
    (hh : ∀ c ∈ h, hostByte c = true) (hne : h ≠ []) (k : Nat) :
    Parse (scheme ++ (h ++ List.replicate k 47)) = some h := by
  obtain ⟨h35, h63, hctl⟩ := parse_tail_plain h hh k
  have hl1 : lit "http://" = [104, 116, 116, 112, 58, 47, 47] := rfl
  have hl2 : lit "https://" = [104, 116, 116, 112, 115, 58, 47, 47] := rfl
  have hstar : lit "*" = [42] := rfl
  have hsl1 : lit "/" = [47] := rfl
  have hsl2 : lit "//" = [47, 47] := rfl
  have h35s : 35 ∉ scheme ++ (h ++ List.replicate k 47) := by
    intro hm
    rcases List.mem_append.mp hm with hm | hm
    · rcases hs with rfl | rfl <;> simp [hl1, hl2] at hm
    · exact h35 hm
  have hctls : stringContainsCTLByte (scheme ++ (h ++ List.replicate k 47)) = false := by
    have : stringContainsCTLByte scheme = false := by
      rcases hs with rfl | rfl <;> decide
    simp only [stringContainsCTLByte] at this hctl ⊢
    rw [List.any_append, this, hctl]
    rfl
  have hparse : parse (scheme ++ (h ++ List.replicate k 47)) = some h := by
    have hgs : ∃ sch, sch ≠ [] ∧ getScheme (scheme ++ (h ++ List.replicate k 47))
        = some (sch, 47 :: 47 :: (h ++ List.replicate k 47)) := by
      rcases hs with rfl | rfl
      · exact ⟨[104, 116, 116, 112], by simp, rfl⟩
      · exact ⟨[104, 116, 116, 112, 115], by simp, rfl⟩
    obtain ⟨sch, hsch, hgs⟩ := hgs
    have hne2 : scheme ++ (h ++ List.replicate k 47) ≠ lit "*" := by
      rcases hs with rfl | rfl <;> simp [hl1, hl2, hstar]
    have h63s : 63 ∉ 47 :: 47 :: (h ++ List.replicate k 47) := by
      simp only [List.mem_cons, not_or]
      exact ⟨by omega, by omega, h63⟩
    rw [parse, hctls, hgs]
    simp only [Bool.false_eq_true, if_false, if_neg hne2, Cut_of_not_mem h63s]
    simp only [HasPrefix, hsl1, hsl2, List.isPrefixOf, beq_self_eq_true, Bool.and_self,
      Bool.not_true, Bool.false_eq_true, if_false, Bool.true_and, List.drop_succ_cons,
      List.drop_zero, takeWhile_host_slashes h hh k, dropWhile_host_slashes h hh k,
      parseAuthority_plain h hh hne, unescape_path_slashes]
    simp [hsch]
  rw [Parse, Cut_of_not_mem h35s]
  simp [hparse]

/-! ## Lemmas on `normalizeDomain` -/

theorem head?_map_of_all {x : GoString} (hx : x ≠ []) (h : ∀ c ∈ x, plainByte c = true) :
    x.head?.map plainByte = some true := by
  cases x with
  | nil => exact absurd rfl hx
  | cons c t => simp [h c (by simp)]

theorem getLast?_map_of_all {x : GoString} (hx : x ≠ []) (h : ∀ c ∈ x, plainByte c = true) :
    x.getLast?.map plainByte = some true := by
  rcases nil_or_snoc x with rfl | ⟨y, c, rfl⟩
  · exact absurd rfl hx
  · simp [h c (by simp)]

theorem HasSuffix_slash_of_not_mem {d : GoString} (h : 47 ∉ d) :
    HasSuffix d (lit "/") = false := by
  rcases nil_or_snoc d with rfl | ⟨x, c, rfl⟩
  · rfl
  · rw [HasSuffix_snoc_slash]
    have : c ≠ 47 := by
      rintro rfl
      exact h (by simp)
    simp [this]

theorem HasPrefix_scheme_of_not_mem {d : GoString} (h : 58 ∉ d) :
    HasPrefix d (lit "http://") = false ∧ HasPrefix d (lit "https://") = false := by
  constructor
  · cases hp : HasPrefix d (lit "http://") with
    | false => rfl
    | true =>
      exfalso
      have : lit "http://" <+: d := List.isPrefixOf_iff_prefix.mp hp
      exact h (this.subset (by decide))
  · cases hp : HasPrefix d (lit "https://") with
    | false => rfl
    | true =>
      exfalso
      have : lit "https://" <+: d := List.isPrefixOf_iff_prefix.mp hp
      exact h (this.subset (by decide))

theorem normalizeDomain_nil : normalizeDomain [] = [] := rfl

theorem normalizeDomain_of_blank {l : GoString} (h : TrimSpace l = []) :
    normalizeDomain l = [] := by
  simp [normalizeDomain, h]

theorem normalizeDomain_TrimSpace (l : GoString) :
    normalizeDomain (TrimSpace l) = normalizeDomain l := by
  simp only [normalizeDomain, TrimSpace_idem]

/-- Without a scheme, the result is the trimmed line less its trailing slashes. -/
theorem normalizeDomain_of_no_scheme {l : GoString}
    (h1 : HasPrefix (TrimSpace l) (lit "http://") = false)
    (h2 : HasPrefix (TrimSpace l) (lit "https://") = false) :
    normalizeDomain l = stripSlashes (TrimSpace l) := by
  unfold normalizeDomain
  by_cases h : TrimSpace l = []
  · simp [h, stripSlashes, stripSlashLoop, HasSuffix_nil_slash]
  · simp [h, h1, h2]

/-- A trimmed text without scheme and without trailing slash is a fixed point. -/
theorem normalizeDomain_fixed {y : GoString} (h1 : leadingRune spaceRunes y = none)
    (h2 : leadingRune (spaceRunes.map List.reverse) y.reverse = none)
    (h3 : HasPrefix y (lit "http://") = false) (h4 : HasPrefix y (lit "https://") = false)
    (h5 : HasSuffix y (lit "/") = false) : normalizeDomain y = y := by
  have ht : TrimSpace y = y := TrimSpace_of_clean h1 h2
  rw [normalizeDomain_of_no_scheme (by rw [ht]; exact h3) (by rw [ht]; exact h4), ht]
  exact stripSlashes_of_clean h5

theorem hostBytes_plain {h : GoString} (hh : ∀ c ∈ h, hostByte c = true) :
    ∀ c ∈ h, plainByte c = true :=
  fun c hc => (hostByte_facts (hh c hc)).2.2.2.2.2.2.2.2.2.2

theorem normalizeDomain_host_slashes (h : GoString) (k : Nat) (pre post : List GoString)
    (hne : h ≠ []) (hh : ∀ c ∈ h, hostByte c = true)
    (hpre : ∀ r ∈ pre, r ∈ spaceRunes) (hpost : ∀ r ∈ post, r ∈ spaceRunes) :
    normalizeDomain (pre.flatten ++ (h ++ List.replicate k 47) ++ post.flatten) = h := by
  have hx : h ++ List.replicate k 47 ≠ [] := by simp [hne]
  have hall : ∀ c ∈ h ++ List.replicate k 47, plainByte c = true := by
    intro c hc
    rcases List.mem_append.mp hc with hc | hc
    · exact hostBytes_plain hh c hc
    · rw [(List.mem_replicate.mp hc).2]; rfl
  have ht := TrimSpace_surrounded pre post _ hpre hpost (head?_map_of_all hx hall)
    (getLast?_map_of_all hx hall)
  have h58 : 58 ∉ h ++ List.replicate k 47 := by
    intro hm
    rcases List.mem_append.mp hm with hm | hm
    · exact (hostByte_facts (hh 58 hm)).2.2.2.2.1 rfl
    · simp at hm
  have h47 : 47 ∉ h := fun hm => (hostByte_facts (hh 47 hm)).2.2.2.2.2.1 rfl
  have hp := HasPrefix_scheme_of_not_mem h58
  rw [normalizeDomain_of_no_scheme (by rw [ht]; exact hp.1) (by rw [ht]; exact hp.2), ht]
  exact stripSlashes_replicate (HasSuffix_slash_of_not_mem h47) k

theorem normalizeDomain_scheme_host_slashes (scheme : GoString)
    (hs : scheme = lit "http://" ∨ scheme = lit "https://") (h : GoString) (k : Nat)
    (pre post : List GoString) (hne : h ≠ []) (hh : ∀ c ∈ h, hostByte c = true)
    (hpre : ∀ r ∈ pre, r ∈ spaceRunes) (hpost : ∀ r ∈ post, r ∈ spaceRunes) :
    normalizeDomain (pre.flatten ++ (scheme ++ (h ++ List.replicate k 47)) ++ post.flatten)
      = h := by
  have hsp : ∀ c ∈ scheme, plainByte c = true := by
    rcases hs with rfl | rfl <;> decide
  have hsne : scheme ≠ [] := by
    rcases hs with rfl | rfl <;> decide
  have hx : scheme ++ (h ++ List.replicate k 47) ≠ [] := by simp [hsne]
  have hall : ∀ c ∈ scheme ++ (h ++ List.replicate k 47), plainByte c = true := by
    intro c hc
    rcases List.mem_append.mp hc with hc | hc
    · exact hsp c hc
    · rcases List.mem_append.mp hc with hc | hc
      · exact hostBytes_plain hh c hc
      · rw [(List.mem_replicate.mp hc).2]; rfl
  have ht := TrimSpace_surrounded pre post _ hpre hpost (head?_map_of_all hx hall)
    (getLast?_map_of_all hx hall)
  have h47 : 47 ∉ h := fun hm => (hostByte_facts (hh 47 hm)).2.2.2.2.2.1 rfl
  have hpfx : (HasPrefix (scheme ++ (h ++ List.replicate k 47)) (lit "http://")
      || HasPrefix (scheme ++ (h ++ List.replicate k 47)) (lit "https://")) = true := by
    rcases hs with rfl | rfl
    · have : HasPrefix (lit "http://" ++ (h ++ List.replicate k 47)) (lit "http://") = true :=
        List.isPrefixOf_iff_prefix.mpr (List.prefix_append _ _)
      simp [this]
    · have : HasPrefix (lit "https://" ++ (h ++ List.replicate k 47)) (lit "https://") = true :=
        List.isPrefixOf_iff_prefix.mpr (List.prefix_append _ _)
      simp [this]
  unfold normalizeDomain
  simp only [ht, hx, if_false, hpfx, if_true, Parse_plain scheme hs h hh hne k, ne_eq, hne,
    not_false_eq_true]
  exact stripSlashes_of_clean (HasSuffix_slash_of_not_mem h47)

/-! ## The host `url.Parse` returns holds no slash -/

theorem shouldEscapeHost_slash : shouldEscapeHost 47 = true := by decide

theorem unescape_no_slash (mode : encoding)
    (hmode : mode = encoding.encodeHost ∨ mode = encoding.encodeZone) :
    ∀ (n : Nat) (s t : GoString), s.length ≤ n → unescape mode s = some t → 47 ∉ t := by
  intro n
  induction n with
  | zero =>
    intro s t hs h
    have : s = [] := List.length_eq_zero.mp (Nat.le_zero.mp hs)
    subst this
    simp [unescape] at h
    subst h
    simp
  | succ n ih =>
    intro s t hs h
    cases s with
    | nil =>
      simp [unescape] at h
      subst h
      simp
    | cons c rest =>
      unfold unescape at h
      by_cases hc : c = 37
      · simp only [hc, if_true] at h
        cases rest with
        | nil => simp at h
        | cons a rest1 =>
          cases rest1 with
          | nil => simp at h
          | cons b rest2 =>
            simp only at h
            split at h
            · exact absurd h (by simp)
            · split at h
              · exact absurd h (by simp)
              · split at h
                · exact absurd h (by simp)
                · rename_i h1 h2 h3
                  cases hr : unescape mode rest2 with
                  | none => simp [hr] at h
                  | some t2 =>
                    simp only [hr, Option.map_some', Option.some.injEq] at h
                    subst h
                    have ht2 : 47 ∉ t2 := ih rest2 t2 (by simp at hs; omega) hr
                    have hv : unhex a * 16 + unhex b ≠ 47 := by
                      intro hv
                      rcases hmode with hm | hm
                      · subst hm
                        simp only [true_and, Bool.and_eq_true, decide_eq_true_eq, Bool.not_eq_true',
                          not_and, Bool.not_eq_false, beq_iff_eq] at h2
                        by_cases h8 : unhex a < 8
                        · have := h2 h8
                          obtain ⟨ha, hb⟩ := this
                          subst ha; subst hb
                          simp [unhex, isDigit] at hv
                        · omega
                      · subst hm
                        simp only [true_and, Bool.and_eq_true, decide_eq_true_eq, Bool.not_eq_true',
                          not_and, Bool.not_eq_false, beq_iff_eq, bne_iff_ne, ne_eq] at h3
                        by_cases h25 : a = 50 ∧ b = 53
                        · obtain ⟨ha, hb⟩ := h25
                          subst ha; subst hb
                          simp [unhex, isDigit] at hv
                        · have h25b : (a == 50 && b == 53) = false := by
                            simpa using h25
                          have := h3 ⟨h25b, by omega⟩
                          rw [hv, shouldEscapeHost_slash] at this
                          exact this rfl
                    simp only [List.mem_cons, not_or]
                    exact ⟨fun e => hv e.symm, ht2⟩
      · simp only [hc, if_false] at h
        split at h
        · exact absurd h (by simp)
        · rename_i h1
          cases hr : unescape mode rest with
          | none => simp [hr] at h
          | some t2 =>
            simp only [hr, Option.map_some', Option.some.injEq] at h
            subst h
            have ht2 : 47 ∉ t2 := ih rest t2 (by simp at hs; omega) hr
            have hc47 : c ≠ 47 := by
              rintro rfl
              rcases hmode with hm | hm <;> subst hm <;> simp [shouldEscapeHost_slash] at h1
            simp only [List.mem_cons, not_or]
            exact ⟨fun e => hc47 e.symm, ht2⟩

theorem parseHost_no_slash {s host : GoString} (h : parseHost s = some host) : 47 ∉ host := by
  have hH := fun s t => unescape_no_slash encoding.encodeHost (Or.inl rfl) s.length s t
    (Nat.le_refl _)
  have hZ := fun s t => unescape_no_slash encoding.encodeZone (Or.inr rfl) s.length s t
    (Nat.le_refl _)
  unfold parseHost at h
  split at h
  · split at h
    · exact absurd h (by simp)
    · split at h
      · exact absurd h (by simp)
      · split at h
        · split at h
          · rename_i h1 h2 h3
            simp only [Option.some.injEq] at h
            subst h
            simp only [List.mem_append, not_or]
            exact ⟨⟨hH _ _ h1, hZ _ _ h2⟩, hH _ _ h3⟩
          · exact absurd h (by simp)
        · exact hH _ _ h
  · split at h
    · split at h
      · exact absurd h (by simp)
      · exact hH _ _ h
    · exact hH _ _ h

theorem parseAuthority_no_slash {s host : GoString} (h : parseAuthority s = some host) :
    47 ∉ host := by
  unfold parseAuthority at h
  split at h
  · exact parseHost_no_slash h
  · split at h
    · exact absurd h (by simp)
    · rename_i hph
      simp only at h
      split at h
      · exact absurd h (by simp)
      · split at h
        · simp only [Option.some.injEq] at h
          subst h
          exact parseHost_no_slash hph
        · exact absurd h (by simp)

theorem parse_no_slash {s host : GoString} (h : parse s = some host) : 47 ∉ host := by
  unfold parse at h
  split at h
  · exact absurd h (by simp)
  · split at h
    · simp only [Option.some.injEq] at h
      subst h
      simp
    · split at h
      · exact absurd h (by simp)
      · simp only at h
        split at h
        · split at h
          · simp only [Option.some.injEq] at h
            subst h
            simp
          · split at h
            · exact absurd h (by simp)
            · simp only [Option.map_eq_some'] at h
              obtain ⟨_, _, rfl⟩ := h
              simp
        · split at h
          · split at h
            · exact absurd h (by simp)
            · rename_i hpa
              simp only [Option.map_eq_some'] at h
              obtain ⟨_, _, rfl⟩ := h
              exact parseAuthority_no_slash hpa
          · simp only [Option.map_eq_some'] at h
            obtain ⟨_, _, rfl⟩ := h
            simp

/-- The host of a parsed URL holds no slash. -/
theorem Parse_no_slash {s host : GoString} (h : Parse s = some host) : 47 ∉ host := by
  unfold Parse at h
  split at h
  · exact absurd h (by simp)
  · rename_i hp
    split at h
    · simp only [Option.some.injEq] at h
      subst h
      exact parse_no_slash hp
    · simp only [Option.map_eq_some'] at h
      obtain ⟨_, _, rfl⟩ := h
      exact parse_no_slash hp

/-! ## Lemmas on target resolution -/

theorem pipedLoop_eq : ∀ (lines ds : List GoString),
    pipedLoop lines ds = ds ++ (lines.map normalizeDomain).filter (fun d => d ≠ []) := by
  intro lines
  induction lines with
  | nil => intro ds; simp [pipedLoop]
  | cons line rest ih =>
    intro ds
    unfold pipedLoop
    by_cases hb : TrimSpace line = []
    · simp [hb, ih, normalizeDomain_of_blank hb]
    · by_cases hn : normalizeDomain line = []
      · simp [hb, hn, ih]
      · simp [hb, hn, ih]

theorem stdinLoop_eq : ∀ (ds : List GoString) (targets : List targetDomain),
    stdinLoop ds targets = targets ++ ds.map (fun d => { Name := d, Exact := true }) := by
  intro ds
  induction ds with
  | nil => intro targets; simp [stdinLoop]
  | cons d rest ih => intro targets; simp [stdinLoop, ih]

theorem listLoop_eq : ∀ (lines : List GoString) (targets : List targetDomain),
    listLoop lines targets = targets ++ listTargets lines := by
  intro lines
  induction lines with
  | nil => intro targets; simp [listLoop, listTargets]
  | cons text rest ih =>
    intro targets
    have hrest : listTargets (text :: rest)
        = (if (decide (TrimSpace text ≠ []) && !HasPrefix (TrimSpace text) (lit "#")
              && decide (normalizeDomain text ≠ [])) = true
            then [{ Name := normalizeDomain text, Exact := false }] else [])
          ++ listTargets rest := by
      unfold listTargets
      rw [List.filter_cons]
      split <;> simp
    rw [hrest]
    unfold listLoop
    simp only [normalizeDomain_TrimSpace, ih]
    by_cases hb : TrimSpace text = []
    · simp [hb]
    · by_cases hc : HasPrefix (TrimSpace text) (lit "#") = true
      · simp [hb, hc]
      · by_cases hn : normalizeDomain text = []
        · simp [hb, hc, hn]
        · simp [hb, hc, hn]

theorem pipedTargets_eq (lines : List GoString) :
    stdinLoop (pipedLoop lines []) [] = pipedTargets lines := by
  rw [stdinLoop_eq, pipedLoop_eq]
  simp [pipedTargets]

theorem hasScheme_of_no_slash {y : GoString} (h : 47 ∉ y) : hasScheme y = false := by
  unfold hasScheme
  cases h1 : HasPrefix y (lit "http://") with
  | true => exact absurd ((List.isPrefixOf_iff_prefix.mp h1).subset (by decide)) h
  | false =>
    cases h2 : HasPrefix y (lit "https://") with
    | true => exact absurd ((List.isPrefixOf_iff_prefix.mp h2).subset (by decide)) h
    | false => rfl

theorem normalizeDomain_of_parsed {l host : GoString} (hs : hasScheme (TrimSpace l) = true)
    (hp : Parse (TrimSpace l) = some host) (hne : host ≠ []) : normalizeDomain l = host := by
  have hd : TrimSpace l ≠ [] := by
    intro h
    rw [h] at hs
    exact absurd hs (by decide)
  unfold hasScheme at hs
  unfold normalizeDomain
  simp only [hd, if_false, hs, if_true, hp, ne_eq, hne, not_false_eq_true]
  exact stripSlashes_of_clean (HasSuffix_slash_of_not_mem (Parse_no_slash hp))

theorem splitNewline_ne_nil (s : GoString) : splitNewline s ≠ [] := by
  cases s with
  | nil => simp [splitNewline]
  | cons c t =>
    unfold splitNewline
    split
    · simp
    · split <;> simp

theorem splitNewline_of_not_mem {s : GoString} (h : 10 ∉ s) : splitNewline s = [s] := by
  induction s with
  | nil => rfl
  | cons c t ih =>
    have hc : c ≠ 10 := by
      rintro rfl
      exact h (by simp)
    have ht : 10 ∉ t := fun hm => h (by simp [hm])
    simp [splitNewline, hc, ih ht]

theorem splitNewline_of_mem {s : GoString} (h : 10 ∈ s) :
    splitNewline s = s.takeWhile (fun c => c != 10)
      :: splitNewline ((s.dropWhile (fun c => c != 10)).drop 1) := by
  induction s with
  | nil => simp at h
  | cons c t ih =>
    by_cases hc : c = 10
    · subst hc
      simp [splitNewline]
    · have ht : 10 ∈ t := by
        rcases List.mem_cons.mp h with h | h
        · exact absurd h.symm hc
        · exact h
      simp [splitNewline, hc, ih ht]

theorem dropWhile_drop_length_lt {s : GoString} (h : 10 ∈ s) :
    ((s.dropWhile (fun c => c != 10)).drop 1).length < s.length := by
  induction s with
  | nil => simp at h
  | cons c t ih =>
    by_cases hc : c = 10
    · subst hc
      simp
    · have ht : 10 ∈ t := by
        rcases List.mem_cons.mp h with h | h
        · exact absurd h.symm hc
        · exact h
      have := ih ht
      simp [List.dropWhile_cons, hc] at this ⊢
      omega

theorem ReadString_of_mem {s : GoString} (h : 10 ∈ s) (readErr : Bool) :
    ReadString s readErr = (s.takeWhile (fun c => c != 10) ++ [10], ReadErr.nil,
      (s.dropWhile (fun c => c != 10)).drop 1) := by
  simp [ReadString, h]

theorem ReadString_of_not_mem {s : GoString} (h : 10 ∉ s) (readErr : Bool) :
    ReadString s readErr = (s, if readErr then ReadErr.other else ReadErr.EOF, []) := by
  simp [ReadString, h]

theorem specLines_of_mem {s : GoString} (h : 10 ∈ s) :
    specLines s = (if TrimSpace (s.takeWhile (fun c => c != 10)) ≠ []
        then [TrimSpace (s.takeWhile (fun c => c != 10))] else [])
      ++ specLines ((s.dropWhile (fun c => c != 10)).drop 1) := by
  unfold specLines
  rw [splitNewline_of_mem h]
  by_cases ht : TrimSpace (s.takeWhile (fun c => c != 10)) = []
  · simp [ht]
  · simp [ht]

theorem specCompleteLines_of_mem {s : GoString} (h : 10 ∈ s) :
    specCompleteLines s = (if TrimSpace (s.takeWhile (fun c => c != 10)) ≠ []
        then [TrimSpace (s.takeWhile (fun c => c != 10))] else [])
      ++ specCompleteLines ((s.dropWhile (fun c => c != 10)).drop 1) := by
  unfold specCompleteLines
  rw [splitNewline_of_mem h, List.dropLast_cons_of_ne_nil (splitNewline_ne_nil _)]
  by_cases ht : TrimSpace (s.takeWhile (fun c => c != 10)) = []
  · simp [ht]
  · simp [ht]

theorem bodyLoop_eof : ∀ (fuel : Nat) (data : GoString) (w : World), data.length < fuel →
    bodyLoop false fuel data w = some { w with out := w.out ++ specLines data } := by
  intro fuel
  induction fuel with
  | zero => intro data w h; omega
  | succ n ih =>
    intro data w hlen
    by_cases h : 10 ∈ data
    · have hl := dropWhile_drop_length_lt h
      rw [bodyLoop, ReadString_of_mem h]
      simp only [TrimSpace_snoc_newline]
      rw [ih _ _ (by omega), specLines_of_mem h]
      by_cases ht : TrimSpace (data.takeWhile (fun c => c != 10)) = []
      · simp [ht]
      · simp [ht, World.send]
    · rw [bodyLoop, ReadString_of_not_mem h]
      simp only [Bool.false_eq_true, if_false]
      unfold specLines
      rw [splitNewline_of_not_mem h]
      by_cases ht : TrimSpace data = []
      · simp [ht]
      · simp [ht, World.send]

theorem bodyLoop_readErr : ∀ (fuel : Nat) (data : GoString) (w : World), data.length < fuel →
    bodyLoop true fuel data w =
      some { w with
        out := w.out ++ specCompleteLines data
        otherErrors := w.otherErrors + 1 } := by
  intro fuel
  induction fuel with
  | zero => intro data w h; omega
  | succ n ih =>
    intro data w hlen
    by_cases h : 10 ∈ data
    · have hl := dropWhile_drop_length_lt h
      rw [bodyLoop, ReadString_of_mem h]
      simp only [TrimSpace_snoc_newline]
      rw [ih _ _ (by omega), specCompleteLines_of_mem h]
      by_cases ht : TrimSpace (data.takeWhile (fun c => c != 10)) = []
      · simp [ht]
      · simp [ht, World.send]
    · rw [bodyLoop, ReadString_of_not_mem h]
      simp only [if_true]
      unfold specCompleteLines
      rw [splitNewline_of_not_mem h]
      simp

/-! ## Lemmas on the retry loop of `streamURLs` -/

/-- Up to retry number 18446744073 the duration Go computes is `500 * try` milliseconds. -/
theorem sleepNanoseconds_exact (try_ : Int) (h0 : 0 ≤ try_) (h1 : try_ ≤ 18446744073) :
    sleepNanoseconds try_ = 500 * try_ * Millisecond := by
  unfold sleepNanoseconds wrapInt64 Millisecond
  omega

/-- At retry number 18446744074 the duration wraps around to a negative value. -/
theorem sleepNanoseconds_wrapped : sleepNanoseconds 18446744074 = -9223372036709551616 := by
  decide


theorem countCalls_eq_countP (p : DoResult → Bool) (client : Nat → DoResult) :
    ∀ (n lo : Nat), countCalls p client lo n
      = (List.range' lo n).countP (fun i => p (client i)) := by
  intro n
  induction n with
  | zero => intro lo; rfl
  | succ n ih =>
    intro lo
    rw [countCalls, ih, List.range'_succ, List.countP_cons]
    omega

theorem countCalls_zero_eq (p : DoResult → Bool) (client : Nat → DoResult) (n : Nat) :
    countCalls p client 0 n = (List.range n).countP (fun i => p (client i)) := by
  rw [countCalls_eq_countP, List.range_eq_range']

theorem backoffFrom_eq_flatMap (url : GoString) : ∀ (n lo : Nat), backoffFrom url lo n
    = (List.range' lo n).flatMap
        (fun k => [Event.request url, Event.sleep (sleepNanoseconds ((k + 1 : Nat) : Int))]) := by
  intro n
  induction n with
  | zero => intro lo; rfl
  | succ n ih =>
    intro lo
    rw [backoffFrom, ih, List.range'_succ, List.flatMap_cons]

theorem backoffFrom_zero_eq (url : GoString) (n : Nat) :
    backoffFrom url 0 n = backoffEvents url n := by
  rw [backoffFrom_eq_flatMap, backoffEvents, List.range_eq_range']

theorem countCalls_snoc (p : DoResult → Bool) (client : Nat → DoResult) :
    ∀ (n lo : Nat), countCalls p client lo (n + 1)
      = countCalls p client lo n + (if p (client (lo + n)) then 1 else 0) := by
  intro n
  induction n with
  | zero => intro lo; simp [countCalls]
  | succ n ih =>
    intro lo
    rw [countCalls, ih (lo + 1), countCalls]
    have : lo + 1 + n = lo + (n + 1) := by omega
    rw [this]
    omega

theorem countCalls_error (client : Nat → DoResult) :
    ∀ (n lo : Nat), (∀ k, k < n → (client (lo + k)).isError = true) →
      countCalls DoResult.isTimeout client lo n + countCalls DoResult.isOther client lo n
        = n := by
  intro n
  induction n with
  | zero => intro lo _; rfl
  | succ n ih =>
    intro lo h
    have h0 := h 0 (by omega)
    have hn := ih (lo + 1) (fun k hk => by
      have := h (k + 1) (by omega)
      rwa [show lo + (k + 1) = lo + 1 + k by omega] at this)
    simp only [countCalls]
    simp only [Nat.add_zero] at h0
    cases hc : client lo with
    | timeout => simp [DoResult.isTimeout, DoResult.isOther]; omega
    | failure => simp [DoResult.isTimeout, DoResult.isOther]; omega
    | response b e => simp [hc, DoResult.isError] at h0

/-- The loop after `m` failed attempts that each leave a retry. -/
theorem retryLoop_failures (client : Nat → DoResult) (url : GoString) (retries : Int)
    (hreq : NewRequest url = true) :
    ∀ (m fuel try_ : Nat) (w : World),
      (∀ k, k < m → (client (try_ + k)).isError = true) →
      ((try_ + m : Nat) : Int) ≤ retries → m < fuel →
      retryLoop client url retries fuel try_ w =
        retryLoop client url retries (fuel - m) (try_ + m)
          { timeoutErrors := w.timeoutErrors + countCalls DoResult.isTimeout client try_ m
            otherErrors := w.otherErrors + countCalls DoResult.isOther client try_ m
            out := w.out
            events := w.events ++ backoffFrom url try_ m } := by
  intro m
  induction m with
  | zero =>
    intro fuel try_ w _ _ _
    simp [countCalls, backoffFrom]
  | succ m ih =>
    intro fuel try_ w hfail hle hfuel
    obtain ⟨f, rfl⟩ : ∃ f, fuel = f + 1 := ⟨fuel - 1, by omega⟩
    have h0 := hfail 0 (by omega)
    simp only [Nat.add_zero] at h0
    have hle1 : ((try_ + 1 : Nat) : Int) ≤ retries := by
      have : ((try_ + 1 : Nat) : Int) ≤ ((try_ + (m + 1) : Nat) : Int) := by
        exact_mod_cast (by omega : try_ + 1 ≤ try_ + (m + 1))
      exact le_trans this hle
    have hrest : ∀ k, k < m → (client (try_ + 1 + k)).isError = true := by
      intro k hk
      have := hfail (k + 1) (by omega)
      rwa [show try_ + (k + 1) = try_ + 1 + k by omega] at this
    have hle2 : ((try_ + 1 + m : Nat) : Int) ≤ retries := by
      rwa [show try_ + 1 + m = try_ + (m + 1) by omega]
    have hf : f + 1 - (m + 1) = f - m := by omega
    have hidx : try_ + (m + 1) = try_ + 1 + m := by omega
    rw [retryLoop]
    simp only [hreq, Bool.not_true, Bool.false_eq_true, if_false]
    cases hc : client try_ with
    | response b e => simp [hc, DoResult.isError] at h0
    | timeout =>
      simp only [hle1, if_true]
      rw [ih f (try_ + 1) _ hrest hle2 (by omega), hf, hidx]
      simp [countCalls, backoffFrom, hc, DoResult.isTimeout, DoResult.isOther, add_assoc]
    | failure =>
      simp only [hle1, if_true]
      rw [ih f (try_ + 1) _ hrest hle2 (by omega), hf, hidx]
      simp [countCalls, backoffFrom, hc, DoResult.isTimeout, DoResult.isOther, add_assoc]

theorem streamURLs_bad_request (td : targetDomain) (client : Nat → DoResult) (retries : Int)
    (w : World) (hreq : NewRequest (apiURL td) = false) :
    streamURLs td client retries w = some { w with otherErrors := w.otherErrors + 1 } := by
  simp [streamURLs, retryLoop, hreq]

theorem streamURLs_response (td : targetDomain) (client : Nat → DoResult) (R N : Nat)
    (body : GoString) (readErr : Bool) (w : World) (hreq : NewRequest (apiURL td) = true)
    (hfail : ∀ i, i < N → (client i).isError = true) (hN : N ≤ R)
    (hok : client N = DoResult.response body readErr) :
    streamURLs td client R w =
      bodyLoop readErr (body.length + 1) body
        { timeoutErrors := w.timeoutErrors + countCalls DoResult.isTimeout client 0 N
          otherErrors := w.otherErrors + countCalls DoResult.isOther client 0 N
          out := w.out
          events := w.events ++ backoffEvents (apiURL td) N ++ [Event.request (apiURL td)] } := by
  unfold streamURLs
  rw [Int.toNat_ofNat, retryLoop_failures client _ _ hreq N (R + 1) 0 w
    (fun k hk => by simpa using hfail k hk) (by simpa using hN) (by omega)]
  obtain ⟨f, hf⟩ : ∃ f, R + 1 - N = f + 1 := ⟨R - N, by omega⟩
  rw [hf, retryLoop]
  simp [hreq, hok, backoffFrom_zero_eq]

theorem streamURLs_response_eof (td : targetDomain) (client : Nat → DoResult) (R N : Nat)
    (body : GoString) (w : World) (hreq : NewRequest (apiURL td) = true)
    (hfail : ∀ i, i < N → (client i).isError = true) (hN : N ≤ R)
    (hok : client N = DoResult.response body false) :
    streamURLs td client R w = some
      { timeoutErrors := w.timeoutErrors + countCalls DoResult.isTimeout client 0 N
        otherErrors := w.otherErrors + countCalls DoResult.isOther client 0 N
        out := w.out ++ specLines body
        events := w.events ++ backoffEvents (apiURL td) N ++ [Event.request (apiURL td)] } := by
  rw [streamURLs_response td client R N body false w hreq hfail hN hok]
  exact bodyLoop_eof _ _ _ (Nat.lt_succ_self _)

theorem streamURLs_exhausted (td : targetDomain) (client : Nat → DoResult) (R : Nat)
    (w : World) (hreq : NewRequest (apiURL td) = true)
    (hfail : ∀ i, i < R + 1 → (client i).isError = true) :
    streamURLs td client R w =
      some
        { timeoutErrors := w.timeoutErrors + countCalls DoResult.isTimeout client 0 (R + 1)
          otherErrors := w.otherErrors + countCalls DoResult.isOther client 0 (R + 1)
          out := w.out
          events := w.events ++ backoffEvents (apiURL td) R ++ [Event.request (apiURL td)] } := by
  unfold streamURLs
  rw [Int.toNat_ofNat, retryLoop_failures client _ _ hreq R (R + 1) 0 w
    (fun k hk => by simpa using hfail k (by omega)) (by simp) (by omega)]
  have hf : R + 1 - R = 0 + 1 := by omega
  have hlast := hfail R (by omega)
  have hgt : ¬ (((0 + R + 1 : Nat) : Int) ≤ (R : Int)) := by
    push_cast
    omega
  rw [hf, retryLoop]
  simp only [hreq, Bool.not_true, Bool.false_eq_true, if_false]
  rw [countCalls_snoc, countCalls_snoc]
  cases hc : client (0 + R) with
  | response b e =>
    rw [Nat.zero_add] at hc
    simp [hc, DoResult.isError] at hlast
  | timeout =>
    simp only [hgt, if_false]
    simp [backoffFrom_zero_eq, DoResult.isTimeout, DoResult.isOther, add_assoc]
  | failure =>
    simp only [hgt, if_false]
    simp [backoffFrom_zero_eq, DoResult.isTimeout, DoResult.isOther, add_assoc]

theorem requestsOf_backoffFrom (url : GoString) : ∀ (n lo : Nat),
    requestsOf (backoffFrom url lo n ++ [Event.request url]) = List.replicate (n + 1) url := by
  intro n
  induction n with
  | zero => intro lo; simp [backoffFrom, requestsOf]
  | succ n ih =>
    intro lo
    have := ih (lo + 1)
    simp only [requestsOf] at this
    simp [backoffFrom, requestsOf, this, List.replicate_succ]

theorem requestsOf_backoff (url : GoString) (n : Nat) :
    requestsOf (backoffEvents url n ++ [Event.request url]) = List.replicate (n + 1) url := by
  rw [← backoffFrom_zero_eq, requestsOf_backoffFrom]

theorem sleepsOf_backoffFrom (url : GoString) : ∀ (n lo : Nat),
    sleepsOf (backoffFrom url lo n ++ [Event.request url])
      = (List.range' lo n).map (fun k => sleepNanoseconds ((k + 1 : Nat) : Int)) := by
  intro n
  induction n with
  | zero => intro lo; simp [backoffFrom, sleepsOf]
  | succ n ih =>
    intro lo
    have := ih (lo + 1)
    simp only [sleepsOf] at this
    simp [backoffFrom, sleepsOf, List.range'_succ, this]

theorem sleepsOf_backoff (url : GoString) (n : Nat) :
    sleepsOf (backoffEvents url n ++ [Event.request url])
      = (List.range n).map (fun k => sleepNanoseconds ((k + 1 : Nat) : Int)) := by
  rw [← backoffFrom_zero_eq, sleepsOf_backoffFrom, List.range_eq_range']

theorem bodyLoop_total (readErr : Bool) (data : GoString) (w : World) :
    (bodyLoop readErr (data.length + 1) data w).isSome = true := by
  cases readErr with
  | false => rw [bodyLoop_eof _ _ _ (Nat.lt_succ_self _)]; rfl
  | true => rw [bodyLoop_readErr _ _ _ (Nat.lt_succ_self _)]; rfl

theorem retryLoop_total (client : Nat → DoResult) (url : GoString) (retries : Int) :
    ∀ (fuel try_ : Nat) (w : World), 0 < fuel → retries.toNat + 1 ≤ try_ + fuel →
      (retryLoop client url retries fuel try_ w).isSome = true := by
  intro fuel
  induction fuel with
  | zero => intro try_ w h; omega
  | succ f ih =>
    intro try_ w _ hle
    rw [retryLoop]
    by_cases hreq : NewRequest url = true
    · simp only [hreq, Bool.not_true, Bool.false_eq_true, if_false]
      cases hc : client try_ with
      | response b e => exact bodyLoop_total _ _ _
      | timeout =>
        simp only
        split
        · rename_i hr
          have : try_ + 1 ≤ retries.toNat := by omega
          exact ih _ _ (by omega) (by omega)
        · rfl
      | failure =>
        simp only
        split
        · rename_i hr
          have : try_ + 1 ≤ retries.toNat := by omega
          exact ih _ _ (by omega) (by omega)
        · rfl
    · simp [hreq]

/-- `streamURLs` returns, whatever the target, the network and the retry count are: the fuel
of its loops is enough. -/
theorem streamURLs_total (td : targetDomain) (client : Nat → DoResult) (retries : Int)
    (w : World) : (streamURLs td client retries w).isSome = true :=
  retryLoop_total client _ retries _ 0 w (by omega) (by omega)

theorem sleepsOf_backoff_exact (url : GoString) (n : Nat) (hn : n ≤ 18446744073) :
    sleepsOf (backoffEvents url n ++ [Event.request url])
      = (List.range n).map (fun k => 500 * ((k + 1 : Nat) : Int) * Millisecond) := by
  rw [sleepsOf_backoff]
  apply List.map_congr_left
  intro k hk
  have hk2 : k < n := List.mem_range.mp hk
  apply sleepNanoseconds_exact
  · exact Int.natCast_nonneg _
  · have : ((k + 1 : Nat) : Int) ≤ ((18446744073 : Nat) : Int) := by
      exact_mod_cast (by omega : k + 1 ≤ 18446744073)
    simpa using this

theorem getLast?_snoc (l : List Int) (a : Int) : (l ++ [a]).getLast? = some a := by
  induction l with
  | nil => rfl
  | cons b t ih =>
    cases t with
    | nil => rfl
    | cons c u =>
      rw [List.cons_append, List.cons_append, List.getLast?_cons_cons]
      exact ih

theorem sleepsOf_backoff_last (url : GoString) (n : Nat) :
    (sleepsOf (backoffEvents url (n + 1) ++ [Event.request url])).getLast?
      = some (sleepNanoseconds ((n + 1 : Nat) : Int)) := by
  rw [sleepsOf_backoff, List.range_succ, List.map_append, List.map_singleton]
  exact getLast?_snoc _ _

theorem streamURLs_exhausted_last (td : targetDomain) (client : Nat → DoResult) (R : Nat)
    (w : World) (hreq : NewRequest (apiURL td) = true)
    (hfail : ∀ i, (client i).isError = true) (hR : 0 < R) :
    ∃ w2, streamURLs td client R w = some w2 ∧
      (sleepsOf w2.events).getLast? = some (sleepNanoseconds (R : Int)) := by
  obtain ⟨n, rfl⟩ : ∃ n, R = n + 1 := ⟨R - 1, by omega⟩
  refine ⟨_, streamURLs_exhausted td client (n + 1) w hreq (fun i _ => hfail i), ?_⟩
  have h := sleepsOf_backoff_last (apiURL td) n
  have happ : sleepsOf (w.events ++ backoffEvents (apiURL td) (n + 1)
      ++ [Event.request (apiURL td)])
      = sleepsOf w.events
        ++ sleepsOf (backoffEvents (apiURL td) (n + 1) ++ [Event.request (apiURL td)]) := by
    simp only [sleepsOf, List.append_assoc, List.filterMap_append]
  show (sleepsOf (w.events ++ backoffEvents (apiURL td) (n + 1)
      ++ [Event.request (apiURL td)])).getLast? = _
  rw [happ, List.getLast?_append, h]
  rfl

/-! ## Lemmas on the worker pool -/

/-- C8. For a non-empty host `h` of letters, digits, `.` and `-` and any `k`,
`normalizeDomain` returns `h` for `h`, for `h` followed by `k` slashes, and for either of
these behind `http://` or `https://`, also when white space runes surround the input; it
returns the empty string for the empty string; and the three documented examples hold. -/
theorem normalizeDomain_bare_host (h : GoString) (k : Nat) (pre post : List GoString)
    (hne : h ≠ []) (hh : ∀ c ∈ h, hostByte c = true)
    (hpre : ∀ r ∈ pre, r ∈ spaceRunes) (hpost : ∀ r ∈ post, r ∈ spaceRunes) :
    normalizeDomain h = h ∧
    normalizeDomain (h ++ List.replicate k 47) = h ∧
    normalizeDomain (lit "http://" ++ (h ++ List.replicate k 47)) = h ∧
    normalizeDomain (lit "https://" ++ (h ++ List.replicate k 47)) = h ∧
    normalizeDomain (pre.flatten ++ h ++ post.flatten) = h ∧
    normalizeDomain (pre.flatten ++ (h ++ List.replicate k 47) ++ post.flatten) = h ∧
    normalizeDomain
      (pre.flatten ++ (lit "http://" ++ (h ++ List.replicate k 47)) ++ post.flatten) = h ∧
    normalizeDomain
      (pre.flatten ++ (lit "https://" ++ (h ++ List.replicate k 47)) ++ post.flatten) = h ∧
    normalizeDomain [] = [] ∧
    normalizeDomain (lit "https://example.com/") = lit "example.com" ∧
    normalizeDomain (lit "example.com/") = lit "example.com" ∧
    normalizeDomain (lit "sub.example.com") = lit "sub.example.com" := by
  have hnil : ∀ r ∈ ([] : List GoString), r ∈ spaceRunes := by simp
  have a1 := normalizeDomain_host_slashes h 0 [] [] hne hh hnil hnil
  have a2 := normalizeDomain_host_slashes h k [] [] hne hh hnil hnil
  have a3 := normalizeDomain_scheme_host_slashes _ (Or.inl rfl) h k [] [] hne hh hnil hnil
  have a4 := normalizeDomain_scheme_host_slashes _ (Or.inr rfl) h k [] [] hne hh hnil hnil
  have a5 := normalizeDomain_host_slashes h 0 pre post hne hh hpre hpost
  simp only [List.flatten_nil, List.nil_append, List.append_nil, List.replicate_zero] at a1 a2 a3 a4 a5
  exact ⟨a1, a2, a3, a4, a5, normalizeDomain_host_slashes h k pre post hne hh hpre hpost,
    normalizeDomain_scheme_host_slashes _ (Or.inl rfl) h k pre post hne hh hpre hpost,
    normalizeDomain_scheme_host_slashes _ (Or.inr rfl) h k pre post hne hh hpre hpost,
    rfl, by decide, by decide, by decide⟩

/-- C8, witness: `example.com` with two slashes, behind a space and a tab and before a
no-break space and a newline. -/
theorem normalizeDomain_bare_host_witness :
    lit "example.com" ≠ [] ∧ (∀ c ∈ lit "example.com", hostByte c = true) ∧
    (∀ r ∈ [[32], [9]], r ∈ spaceRunes) ∧ (∀ r ∈ [[0xC2, 0xA0], [10]], r ∈ spaceRunes) ∧
    normalizeDomain ([[32], [9]].flatten ++ (lit "https://"
      ++ (lit "example.com" ++ List.replicate 2 47)) ++ [[0xC2, 0xA0], [10]].flatten)
      = lit "example.com" :=
  ⟨by decide, by decide, by decide, by decide,
    (normalizeDomain_bare_host (lit "example.com") 2 [[32], [9]] [[0xC2, 0xA0], [10]]
      (by decide) (by decide) (by decide) (by decide)).2.2.2.2.2.2.2.1⟩

/-- C4 fails as stated. The input `https://http://example.com/%zz/` begins with a scheme and
ends with a slash; `url.Parse` rejects it for the escape `%zz`, the fallback strips `https://`
alone, and the result `http://example.com/%zz` normalizes further to `example.com/%zz`. -/
theorem normalizeDomain_not_idempotent_counterexample :
    HasPrefix (lit "https://http://example.com/%zz/") (lit "https://") = true ∧
    HasSuffix (lit "https://http://example.com/%zz/") (lit "/") = true ∧
    Parse (lit "https://http://example.com/%zz/") = none ∧
    normalizeDomain (lit "https://http://example.com/%zz/") = lit "http://example.com/%zz" ∧
    normalizeDomain (normalizeDomain (lit "https://http://example.com/%zz/"))
      = lit "example.com/%zz" ∧
    normalizeDomain (normalizeDomain (lit "https://http://example.com/%zz/"))
      ≠ normalizeDomain (lit "https://http://example.com/%zz/") := by
  decide

/-- C4, as amended. When the trimmed input begins with `http://` or `https://` and
`url.Parse` accepts it with a non-empty host that has no white space at its ends,
`normalizeDomain` returns that host and is idempotent on the input. -/
theorem normalizeDomain_idempotent_of_parsed (x host : GoString)
    (hs : hasScheme (TrimSpace x) = true) (hp : Parse (TrimSpace x) = some host)
    (hne : host ≠ []) (hclean : TrimSpace host = host) :
    normalizeDomain x = host ∧ normalizeDomain (normalizeDomain x) = normalizeDomain x := by
  have hx := normalizeDomain_of_parsed hs hp hne
  have h47 := Parse_no_slash hp
  have hc := TrimSpace_clean host
  rw [hclean] at hc
  have hsch : HasPrefix host (lit "http://") = false ∧ HasPrefix host (lit "https://") = false := by
    simpa [hasScheme] using hasScheme_of_no_slash h47
  refine ⟨hx, ?_⟩
  rw [hx]
  exact normalizeDomain_fixed hc.1 hc.2 hsch.1 hsch.2 (HasSuffix_slash_of_not_mem h47)

/-- C4, witness: a URL with port, path and trailing slashes between spaces. -/
theorem normalizeDomain_idempotent_of_parsed_witness :
    hasScheme (TrimSpace (lit " https://example.com:8080/a/b// ")) = true ∧
    Parse (TrimSpace (lit " https://example.com:8080/a/b// ")) = some (lit "example.com:8080") ∧
    lit "example.com:8080" ≠ [] ∧
    TrimSpace (lit "example.com:8080") = lit "example.com:8080" ∧
    normalizeDomain (lit " https://example.com:8080/a/b// ") = lit "example.com:8080" ∧
    normalizeDomain (normalizeDomain (lit " https://example.com:8080/a/b// "))
      = normalizeDomain (lit " https://example.com:8080/a/b// ") :=
  ⟨by decide, by decide, by decide, by decide,
    normalizeDomain_idempotent_of_parsed (lit " https://example.com:8080/a/b// ")
      (lit "example.com:8080") (by decide) (by decide) (by decide) (by decide)⟩

/-- C5 fails as stated. The line `/` is neither blank nor a comment, so the claim wants a
target for it, named by its normalization, which is empty; the code skips the line. -/
theorem resolveTargets_list_counterexample :
    TrimSpace (lit "/") ≠ [] ∧ HasPrefix (TrimSpace (lit "/")) (lit "#") = false ∧
    specListTargets [lit "/"] = [{ Name := [], Exact := false }] ∧
    resolveTargets Stdin.terminal listFlags (some ([lit "/"], false)) = some [] := by
  decide

/-- C5, as amended. When standard input yields no domain (no piped input) and the list file
is read without error, the targets are: one per line that is non-blank, not a comment and
whose normalization is not empty, in file order, named by the normalization of the line and
not exact. The example of the specification gives `example.com` and `other.com`, and there
the wording of the specification and the code agree. -/
theorem resolveTargets_list_file (stdin : Stdin) (lines : List GoString) (flags : Flags)
    (hin : (pipedInputDomains stdin).1 = []) (hdl : flags.domainList ≠ []) :
    resolveTargets stdin flags (some (lines, false)) = some (listTargets lines) ∧
    listTargets exampleList = [{ Name := lit "example.com", Exact := false },
      { Name := lit "other.com", Exact := false }] ∧
    specListTargets exampleList = listTargets exampleList := by
  refine ⟨?_, by decide, by decide⟩
  simp [resolveTargets, hin, hdl, listLoop_eq]

/-- C5, witness: the example list file of the specification, read from a terminal. -/
theorem resolveTargets_list_file_witness :
    (pipedInputDomains Stdin.terminal).1 = [] ∧ listFlags.domainList ≠ [] ∧
    resolveTargets Stdin.terminal listFlags (some (exampleList, false))
      = some [{ Name := lit "example.com", Exact := false },
          { Name := lit "other.com", Exact := false }] :=
  ⟨rfl, by decide, by
    rw [(resolveTargets_list_file Stdin.terminal exampleList listFlags rfl (by decide)).1,
      (resolveTargets_list_file Stdin.terminal exampleList listFlags rfl (by decide)).2.1]⟩

/-- C6 fails as stated. Piped input whose only line is `/` yields no target, since the line
normalizes to the empty string; resolution then falls through to the flags, and `-d` and `-u`
each contribute a target. -/
theorem resolveTargets_piped_counterexample :
    TrimSpace (lit "/") ≠ [] ∧ pipedInputDomains (Stdin.piped [lit "/"] false) = ([], false) ∧
    resolveTargets (Stdin.piped [lit "/"] false)
        { domain := lit "example.com", domainExact := lit "example.org", domainList := [] } none
      = some [{ Name := lit "example.com", Exact := false },
          { Name := lit "example.org", Exact := true }] := by
  decide

/-- C6, as amended. When the piped input is read without error and at least one of its lines
has a non-empty normalization, the targets are exactly one exact target per such line, in
order, whatever the flags and the list file are. -/
theorem resolveTargets_piped (lines : List GoString) (flags : Flags)
    (file : Option (List GoString × Bool)) (h : ∃ l ∈ lines, normalizeDomain l ≠ []) :
    resolveTargets (Stdin.piped lines false) flags file = some (pipedTargets lines) := by
  obtain ⟨l, hl, hne⟩ := h
  have hmem : normalizeDomain l ∈ pipedLoop lines [] := by
    rw [pipedLoop_eq]
    simp only [List.nil_append, List.mem_filter, List.mem_map, decide_eq_true_eq]
    exact ⟨⟨l, hl, rfl⟩, hne⟩
  have hpos : 0 < (pipedLoop lines []).length := List.length_pos_of_mem hmem
  simp [resolveTargets, pipedInputDomains, hpos, pipedTargets_eq]

/-- C6, witness: two piped lines against flags and a list file that are all set. -/
theorem resolveTargets_piped_witness :
    (∃ l ∈ [lit "https://a.example/", lit " b.example "], normalizeDomain l ≠ []) ∧
    resolveTargets (Stdin.piped [lit "https://a.example/", lit " b.example "] false) allFlags
        (some (exampleList, false))
      = some [{ Name := lit "a.example", Exact := true },
          { Name := lit "b.example", Exact := true }] :=
  ⟨⟨lit "https://a.example/", by decide, by decide⟩, by
    rw [resolveTargets_piped _ allFlags _ ⟨lit "https://a.example/", by decide, by decide⟩]
    decide⟩

/-- C1, as amended. For a target whose query URL `http.NewRequest` accepts, a retry count
`R` and `N` failed calls of `client.Do`, `streamURLs` returns, and: if `N ≤ R` and the next
call answers with a body that is read to its end, it sends the Result Lines of the body and
`timeoutErrors` and `otherErrors` grow by the numbers of timeouts and of other errors among
the `N` failures, `N` in total; if `N > R` it sends nothing and the counters grow by the
numbers of timeouts and of other errors among the first `R + 1` failures,
`R + 1 = min N (R + 1)` in total. -/
theorem streamURLs_failures_then_response (td : targetDomain) (client : Nat → DoResult)
    (R N : Nat) (body : GoString) (w : World)
    (hreq : NewRequest (apiURL td) = true)
    (hfail : ∀ i, i < N → (client i).isError = true) :
    (N ≤ R → client N = DoResult.response body false →
      ∃ w2, streamURLs td client R w = some w2 ∧
        w2.out = w.out ++ specLines body ∧
        w2.timeoutErrors
          = w.timeoutErrors + (List.range N).countP (fun i => (client i).isTimeout) ∧
        w2.otherErrors = w.otherErrors + (List.range N).countP (fun i => (client i).isOther) ∧
        (w2.timeoutErrors - w.timeoutErrors) + (w2.otherErrors - w.otherErrors) = N) ∧
    (R < N →
      ∃ w2, streamURLs td client R w = some w2 ∧
        w2.out = w.out ∧
        w2.timeoutErrors
          = w.timeoutErrors + (List.range (R + 1)).countP (fun i => (client i).isTimeout) ∧
        w2.otherErrors
          = w.otherErrors + (List.range (R + 1)).countP (fun i => (client i).isOther) ∧
        (w2.timeoutErrors - w.timeoutErrors) + (w2.otherErrors - w.otherErrors) = R + 1 ∧
        R + 1 = min N (R + 1)) := by
  constructor
  · intro hge hok
    refine ⟨_, streamURLs_response_eof td client R N body w hreq hfail hge hok, rfl, ?_⟩
    have hsum := countCalls_error client N 0 (fun k hk => by simpa using hfail k hk)
    simp only [countCalls_zero_eq] at hsum
    have : ((List.countP (fun i => (client i).isTimeout) (List.range N) : Nat) : Int)
        + ((List.countP (fun i => (client i).isOther) (List.range N) : Nat) : Int)
        = ((N : Nat) : Int) := by exact_mod_cast hsum
    refine ⟨?_, ?_, ?_⟩
    · simp only [countCalls_zero_eq]
    · simp only [countCalls_zero_eq]
    · simp only [countCalls_zero_eq, add_sub_cancel_left]
      omega
  · intro hlt
    have hf : ∀ i, i < R + 1 → (client i).isError = true := fun i hi => hfail i (by omega)
    refine ⟨_, streamURLs_exhausted td client R w hreq hf, rfl, ?_⟩
    have hsum := countCalls_error client (R + 1) 0 (fun k hk => by simpa using hf k hk)
    simp only [countCalls_zero_eq] at hsum
    have : ((List.countP (fun i => (client i).isTimeout) (List.range (R + 1)) : Nat) : Int)
        + ((List.countP (fun i => (client i).isOther) (List.range (R + 1)) : Nat) : Int)
        = ((R + 1 : Nat) : Int) := by exact_mod_cast hsum
    push_cast at this
    refine ⟨?_, ?_, ?_, by omega⟩
    · simp only [countCalls_zero_eq]
    · simp only [countCalls_zero_eq]
    · simp only [countCalls_zero_eq, add_sub_cancel_left]
      omega

/-- C1, witness: one timeout and then a two-line response with two retries allowed, and a
client that only times out with two retries allowed. -/
theorem streamURLs_failures_then_response_witness :
    NewRequest (apiURL fooTarget) = true ∧
    (∀ i, i < 1 → (flakyClient i).isError = true) ∧
    flakyClient 1 = DoResult.response twoLines false ∧
    (∃ w2, streamURLs fooTarget flakyClient 2 World.init = some w2 ∧
      w2.out = World.init.out ++ specLines twoLines ∧
      w2.timeoutErrors = World.init.timeoutErrors
        + (List.range 1).countP (fun i => (flakyClient i).isTimeout) ∧
      w2.otherErrors = World.init.otherErrors
        + (List.range 1).countP (fun i => (flakyClient i).isOther) ∧
      (w2.timeoutErrors - World.init.timeoutErrors)
        + (w2.otherErrors - World.init.otherErrors) = (1 : Nat)) ∧
    (∀ i, i < 5 → (deadClient i).isError = true) ∧
    (∃ w2, streamURLs fooTarget deadClient 2 World.init = some w2 ∧
      w2.out = World.init.out ∧
      w2.timeoutErrors = World.init.timeoutErrors
        + (List.range (2 + 1)).countP (fun i => (deadClient i).isTimeout) ∧
      w2.otherErrors = World.init.otherErrors
        + (List.range (2 + 1)).countP (fun i => (deadClient i).isOther) ∧
      (w2.timeoutErrors - World.init.timeoutErrors)
        + (w2.otherErrors - World.init.otherErrors) = ((2 : Nat) : Int) + 1 ∧
      2 + 1 = min 5 (2 + 1)) :=
  ⟨by decide, by decide, rfl,
    (streamURLs_failures_then_response fooTarget flakyClient 2 1 twoLines World.init
      (by decide) (by decide)).1 (by decide) rfl,
    by decide,
    (streamURLs_failures_then_response fooTarget deadClient 2 5 twoLines World.init
      (by decide) (by decide)).2 (by decide)⟩

/-- C1 fails as stated. The piped line `example.com<TAB>staging` resolves to a target of that
name; its query URL holds a control byte, `http.NewRequest` rejects it, and `streamURLs`
returns without any call of `client.Do`: with `N = 0` failures before a client that would
answer with two lines, and `R = 2`, nothing is sent and `otherErrors` grows by one. -/
theorem streamURLs_rejected_url_counterexample :
    resolveTargets (Stdin.piped [tabLine] false) noFlags none
      = some [{ Name := tabLine, Exact := true }] ∧
    NewRequest (apiURL { Name := tabLine, Exact := true }) = false ∧
    goodClient 0 = DoResult.response twoLines false ∧
    specLines twoLines = [lit "http://foo.com/a", lit "http://foo.com/b"] ∧
    streamURLs { Name := tabLine, Exact := true } goodClient 2 World.init
      = some { timeoutErrors := 0, otherErrors := 1, out := [], events := [] } := by
  decide

/-- C7, as amended. Let every call of `client.Do` fail and let `R` be the retry count. For a
target whose query URL `http.NewRequest` accepts, `streamURLs` returns after the events
`request, sleep d1, request, sleep d2, ..., request, sleep dR, request`: it makes `R + 1`
requests, all for the query URL of the target, wait `k` comes between request `k` and
request `k + 1`, no wait follows the last request, and `dk` is the duration Go computes for
`500 * k` milliseconds on 64-bit integers; for `R ≤ 18446744073` the waits are exactly
`500 * 1, ..., 500 * R` milliseconds; nothing is sent. For a target whose query URL
`http.NewRequest` rejects, `streamURLs` adds one to `otherErrors` and returns with no
request and no wait. -/
theorem streamURLs_all_attempts_fail (td : targetDomain) (client : Nat → DoResult) (R : Nat)
    (w : World) (hfail : ∀ i, (client i).isError = true) :
    (NewRequest (apiURL td) = true →
      ∃ w2, streamURLs td client R w = some w2 ∧
        w2.events = w.events ++ backoffEvents (apiURL td) R ++ [Event.request (apiURL td)] ∧
        requestsOf (backoffEvents (apiURL td) R ++ [Event.request (apiURL td)])
          = List.replicate (R + 1) (apiURL td) ∧
        sleepsOf (backoffEvents (apiURL td) R ++ [Event.request (apiURL td)])
          = (List.range R).map (fun k => sleepNanoseconds ((k + 1 : Nat) : Int)) ∧
        (R ≤ 18446744073 →
          sleepsOf (backoffEvents (apiURL td) R ++ [Event.request (apiURL td)])
            = (List.range R).map (fun k => 500 * ((k + 1 : Nat) : Int) * Millisecond)) ∧
        w2.out = w.out) ∧
    (NewRequest (apiURL td) = false →
      streamURLs td client R w = some { w with otherErrors := w.otherErrors + 1 }) :=
  ⟨fun hreq => ⟨_, streamURLs_exhausted td client R w hreq (fun i _ => hfail i), rfl,
      requestsOf_backoff _ _, sleepsOf_backoff _ _, sleepsOf_backoff_exact _ _, rfl⟩,
    streamURLs_bad_request td client R w⟩

/-- C7, witness: two retries against a client that always times out; the waits are 500 and
1000 milliseconds. -/
theorem streamURLs_all_attempts_fail_witness :
    (∀ i, (deadClient i).isError = true) ∧ NewRequest (apiURL fooTarget) = true ∧
    2 ≤ 18446744073 ∧
    (List.range 2).map (fun k => 500 * ((k + 1 : Nat) : Int) * Millisecond)
      = [500000000, 1000000000] ∧
    ∃ w2, streamURLs fooTarget deadClient 2 World.init = some w2 ∧
      w2.events = World.init.events ++ backoffEvents (apiURL fooTarget) 2
        ++ [Event.request (apiURL fooTarget)] ∧
      requestsOf (backoffEvents (apiURL fooTarget) 2 ++ [Event.request (apiURL fooTarget)])
        = List.replicate (2 + 1) (apiURL fooTarget) ∧
      sleepsOf (backoffEvents (apiURL fooTarget) 2 ++ [Event.request (apiURL fooTarget)])
        = (List.range 2).map (fun k => sleepNanoseconds ((k + 1 : Nat) : Int)) ∧
      (2 ≤ 18446744073 →
        sleepsOf (backoffEvents (apiURL fooTarget) 2 ++ [Event.request (apiURL fooTarget)])
          = (List.range 2).map (fun k => 500 * ((k + 1 : Nat) : Int) * Millisecond)) ∧
      w2.out = World.init.out :=
  ⟨fun _ => rfl, by decide, by decide, by decide,
    (streamURLs_all_attempts_fail fooTarget deadClient 2 World.init (fun _ => rfl)).1
      (by decide)⟩

/-- C7 fails as stated, in two ways. For the target name `a<TAB>b` the query URL holds a
control byte and `http.NewRequest` rejects it: with `R = 2` and a client whose every call
would time out, `streamURLs` makes no request at all, where the claim wants three. And for
the target `foo.com` with `R = 18446744074` and the same client, the last wait is not
`500 * R` milliseconds: the duration `time.Duration(500*try) * time.Millisecond` has wrapped
around to a negative number of nanoseconds. -/
theorem streamURLs_no_attempt_counterexample :
    (NewRequest (apiURL { Name := [97, 9, 98], Exact := false }) = false ∧
      (deadClient 0).isError = true ∧
      streamURLs { Name := [97, 9, 98], Exact := false } deadClient 2 World.init
        = some { timeoutErrors := 0, otherErrors := 1, out := [], events := [] } ∧
      requestsOf ([] : List Event) = []) ∧
    (NewRequest (apiURL fooTarget) = true ∧
      ∃ w2, streamURLs fooTarget deadClient ((18446744074 : Nat) : Int) World.init = some w2 ∧
        (sleepsOf w2.events).getLast? = some (-9223372036709551616) ∧
        (-9223372036709551616 : Int) ≠ 500 * 18446744074 * Millisecond) := by
  refine ⟨by decide, by decide, ?_⟩
  obtain ⟨w2, h1, h2⟩ := streamURLs_exhausted_last fooTarget deadClient 18446744074
    World.init (by decide) (fun _ => rfl) (by decide)
  rw [Nat.cast_ofNat, sleepNanoseconds_wrapped] at h2
  exact ⟨w2, h1, h2, by decide⟩

/-- C2. A response body that is read to its end without error makes the body loop of
`streamURLs` send exactly the Result Lines of the specification: the pieces of the body
between newlines, each trimmed, without the pieces that are empty after trimming, in their
order; the piece after the last newline (an unterminated final line) is one of them. The
loop returns with the fuel given. So does `streamURLs` as a whole once a call of `client.Do`
answers after `N ≤ R` failed calls. -/
theorem streamURLs_result_lines (body : GoString) :
    (∀ w : World, bodyLoop false (body.length + 1) body w
      = some { w with out := w.out ++ specLines body }) ∧
    (∀ (td : targetDomain) (client : Nat → DoResult) (R N : Nat) (w : World),
      NewRequest (apiURL td) = true → (∀ i, i < N → (client i).isError = true) → N ≤ R →
      client N = DoResult.response body false →
      ∃ w2, streamURLs td client R w = some w2 ∧ w2.out = w.out ++ specLines body) := by
  refine ⟨fun w => bodyLoop_eof _ _ _ (Nat.lt_succ_self _), ?_⟩
  intro td client R N w hreq hfail hN hok
  exact ⟨_, streamURLs_response_eof td client R N body w hreq hfail hN hok, rfl⟩

/-- C2, witness: the two lines of `twoLines`, the second one unterminated, after one
timeout. -/
theorem streamURLs_result_lines_witness :
    NewRequest (apiURL fooTarget) = true ∧ (∀ i, i < 1 → (flakyClient i).isError = true) ∧
    1 ≤ 2 ∧ flakyClient 1 = DoResult.response twoLines false ∧
    specLines twoLines = [lit "http://foo.com/a", lit "http://foo.com/b"] ∧
    ∃ w2, streamURLs fooTarget flakyClient 2 World.init = some w2 ∧
      w2.out = World.init.out ++ specLines twoLines :=
  ⟨by decide, by decide, by decide, rfl, by decide,
    (streamURLs_result_lines twoLines).2 fooTarget flakyClient 2 1 World.init
      (by decide) (by decide) (by decide) rfl⟩

/-- C3. The query URL of a target named `h` is the text
`https://web.archive.org/cdx/search/cdx?url=`, then `h`, then
`/*&collapse=urlkey&output=text&fl=original` when the target is exact, and the same with
`*.` before `h` when it is wildcard; for `foo.com` the wildcard URL contains
`url=*.foo.com/*` and the exact URL contains `url=foo.com/*`. -/
theorem apiURL_exact_and_wildcard (h : GoString) :
    apiURL { Name := h, Exact := true }
      = lit "https://web.archive.org/cdx/search/cdx?url=" ++ h
        ++ lit "/*&collapse=urlkey&output=text&fl=original" ∧
    apiURL { Name := h, Exact := false }
      = lit "https://web.archive.org/cdx/search/cdx?url=*." ++ h
        ++ lit "/*&collapse=urlkey&output=text&fl=original" ∧
    lit "url=*.foo.com/*" <:+: apiURL { Name := lit "foo.com", Exact := false } ∧
    lit "url=foo.com/*" <:+: apiURL { Name := lit "foo.com", Exact := true } :=
  ⟨rfl, rfl,
    ⟨lit "https://web.archive.org/cdx/search/cdx?",
      lit "&collapse=urlkey&output=text&fl=original", by decide⟩,
    ⟨lit "https://web.archive.org/cdx/search/cdx?",
      lit "&collapse=urlkey&output=text&fl=original", by decide⟩⟩

/-! ## The claim on the worker pool -/

end WaybackScope
